import Mathlib

set_option maxHeartbeats 1000000

namespace GQLIns

/-! Shallow embedding of the graphqlinsights scanner and parser
(src/pkg/lexer/lexer.go and src/pkg/parser/parser.go).

The Go lexer reads the input one byte at a time (rune(l.input[l.position])),
so the embedding models the input as its list of characters; this is exact
for inputs whose bytes are single characters (all ASCII inputs).  The Go
character classifiers (unicode.IsSpace, unicode.IsLetter, unicode.IsDigit)
are therefore only ever applied to single byte values, and are embedded by
their restrictions to the byte range (Latin-1). -/

/-- Source text and token values: a Go string read byte by byte. -/
abbrev Str := List Char

/-- The characters of a Lean string literal, used to write concrete inputs. -/
def chars (s : String) : Str := s.data

/-- The rune 0 that lexer.go's readChar stores once the cursor is past the
end of the input. -/
def nul : Char := Char.ofNat 0

/-- Go's unicode.IsSpace restricted to single byte values: the characters
the lexer's whitespace-skipping loop consumes. -/
def goIsSpace (c : Char) : Bool :=
  c.toNat = 9 || c.toNat = 10 || c.toNat = 11 || c.toNat = 12 ||
  c.toNat = 13 || c.toNat = 32 || c.toNat = 133 || c.toNat = 160

/-- Go's unicode.IsLetter restricted to single byte values (ASCII letters and
the Latin-1 letters). -/
def goIsUnicodeLetter (c : Char) : Bool :=
  (65 ≤ c.toNat && c.toNat ≤ 90) || (97 ≤ c.toNat && c.toNat ≤ 122) ||
  c.toNat = 170 || c.toNat = 181 || c.toNat = 186 ||
  (192 ≤ c.toNat && c.toNat ≤ 214) || (216 ≤ c.toNat && c.toNat ≤ 246) ||
  (248 ≤ c.toNat && c.toNat ≤ 255)

/-- lexer.go isLetter: unicode.IsLetter(ch) || ch == '_'. -/
def isLetter (c : Char) : Bool := goIsUnicodeLetter c || c = '_'

/-- lexer.go isDigit: unicode.IsDigit(ch), restricted to byte values
(the decimal digits). -/
def isDigit (c : Char) : Bool := 48 ≤ c.toNat && c.toNat ≤ 57

/-- lexer.go TokenType: the closed enumeration of token kinds.  In Go each
kind is a string constant; here the kinds are constructors and the
underlying strings are never needed. -/
inductive TokenType where
  | TokenBraceL
  | TokenBraceR
  | TokenParenL
  | TokenParenR
  | TokenColon
  | TokenAt
  | TokenString
  | TokenIdent
  | TokenEOF
deriving DecidableEq, Repr

open TokenType

/-- lexer.go Token: a kind (Go field Type, renamed since Type is a Lean
keyword) and its text (Go field Value). -/
structure Token where
  type : TokenType
  value : Str
deriving DecidableEq, Repr

/-- lexer.go Lexer: the input, the cursor, and the one-character lookahead. -/
structure Lexer where
  input : Str
  position : Nat
  currentChar : Char
deriving DecidableEq, Repr

/-- lexer.go readChar: if position is past the end the current character
becomes the rune 0, otherwise the byte at position; position advances. -/
def readChar (l : Lexer) : Lexer :=
  { l with currentChar := l.input.getD l.position nul, position := l.position + 1 }

/-- lexer.go NewLexer: zero-valued struct (position 0, currentChar 0),
then one readChar. -/
def NewLexer (input : Str) : Lexer :=
  readChar { input := input, position := 0, currentChar := nul }

/-- The whitespace-skipping loop at the top of NextToken
(for unicode.IsSpace(l.currentChar) readChar), with explicit fuel;
none means the fuel ran out before the loop exited. -/
def skipSpaces : Nat → Lexer → Option Lexer
  | 0, _ => none
  | fuel + 1, l =>
    if goIsSpace l.currentChar then skipSpaces fuel (readChar l) else some l

/-- The string-literal loop of NextToken (for l.currentChar != val readChar,
where val is the double quote), with explicit fuel; in Go this loop never
exits when no closing quote remains, so none at every fuel models that the
call never returns. -/
def scanStringEnd : Nat → Lexer → Option Lexer
  | 0, _ => none
  | fuel + 1, l =>
    if l.currentChar = '"' then some l else scanStringEnd fuel (readChar l)

/-- The identifier loop of NextToken
(for isLetter(l.currentChar) || isDigit(l.currentChar) readChar). -/
def scanIdentEnd : Nat → Lexer → Option Lexer
  | 0, _ => none
  | fuel + 1, l =>
    if isLetter l.currentChar || isDigit l.currentChar then
      scanIdentEnd fuel (readChar l)
    else some l

/-- Go slicing input[a:b] on the character list. -/
def slice (xs : Str) (a b : Nat) : Str := (xs.take b).drop a

/-- Fuel that provably suffices for the whitespace and identifier loops from
any reachable lexer state (each step moves position forward by one, and both
loops stop at the rune 0 that stands past the end of the input), and for the
string loop whenever a closing quote remains. -/
def lexFuel (l : Lexer) : Nat := l.input.length + 2

/-- The switch of lexer.go NextToken, after the whitespace skip: classify
exactly one lexeme starting at the current character.  F is the loop fuel
(NextToken passes lexFuel). -/
def NextTokenBody (F : Nat) (l1 : Lexer) : Option (Token × Lexer) :=
  if l1.currentChar = '{' then
    some ({ type := TokenBraceL, value := chars "\x7b" }, readChar l1)
  else if l1.currentChar = '}' then
    some ({ type := TokenBraceR, value := chars "\x7d" }, readChar l1)
  else if l1.currentChar = '(' then
    some ({ type := TokenParenL, value := chars "(" }, readChar l1)
  else if l1.currentChar = ')' then
    some ({ type := TokenParenR, value := chars ")" }, readChar l1)
  else if l1.currentChar = ':' then
    some ({ type := TokenColon, value := chars ":" }, readChar l1)
  else if l1.currentChar = '@' then
    some ({ type := TokenAt, value := chars "@" }, readChar l1)
  else if l1.currentChar = '"' then
    let l2 := readChar l1
    let start := l2.position - 1
    match scanStringEnd F l2 with
    | none => none
    | some l3 =>
      some ({ type := TokenString, value := slice l1.input start l3.position },
            readChar l3)
  else if l1.currentChar = nul then
    some ({ type := TokenEOF, value := [] }, l1)
  else if isLetter l1.currentChar then
    let start := l1.position - 1
    match scanIdentEnd F l1 with
    | none => none
    | some l3 =>
      some ({ type := TokenIdent, value := slice l1.input start (l3.position - 1) },
            l3)
  else
    some ({ type := TokenEOF, value := [] }, l1)

/-- lexer.go NextToken: skip whitespace, then classify one lexeme.  The only
possible source of none is the string-literal loop: on an unterminated
string literal Go's NextToken never returns, and this embedding returns
none (see scanStringEnd). -/
def NextToken (l : Lexer) : Option (Token × Lexer) :=
  match skipSpaces (lexFuel l) l with
  | none => none
  | some l1 => NextTokenBody (lexFuel l) l1

/-- parser.go NodeType. -/
inductive NodeType where
  | NodeQuery
  | NodeField
  | NodeDirective
deriving DecidableEq, Repr

open NodeType

/-- parser.go Node.  Arguments is a Go map[string]string; it is embedded as
the association list the parser's insertions build (see mapInsert), whose
key set and values are exactly the Go map's.  Go slices Directives and
SelectionSet are lists in source order. -/
inductive Node where
  | mk (type : NodeType) (Name : Str) (Arguments : List (Str × Str))
       (Directives : List Node) (SelectionSet : List Node)
deriving Repr

def Node.type : Node → NodeType
  | .mk t _ _ _ _ => t

def Node.Name : Node → Str
  | .mk _ n _ _ _ => n

def Node.Arguments : Node → List (Str × Str)
  | .mk _ _ a _ _ => a

def Node.Directives : Node → List Node
  | .mk _ _ _ d _ => d

def Node.SelectionSet : Node → List Node
  | .mk _ _ _ _ s => s

/-- Go map assignment args[k] = v on the association-list embedding:
overwrite the value when the key is present, append otherwise. -/
def mapInsert (m : List (Str × Str)) (k v : Str) : List (Str × Str) :=
  match m with
  | [] => [(k, v)]
  | (k', v') :: rest =>
    if k' = k then (k', v) :: rest else (k', v') :: mapInsert rest k v

/-- Go map lookup args[k] on the association-list embedding. -/
def mapLookup (m : List (Str × Str)) (k : Str) : Option Str :=
  match m with
  | [] => none
  | (k', v') :: rest => if k' = k then some v' else mapLookup rest k

/-- parser.go strings.Trim(argValue, quote): remove every leading and every
trailing double-quote character. -/
def trimQuotes (s : Str) : Str :=
  ((s.dropWhile (fun c => c = '"')).reverse.dropWhile (fun c => c = '"')).reverse

/-- parser.go Parser: the lexer and the single-token lookahead curr. -/
structure Parser where
  lexer : Lexer
  curr : Token
deriving DecidableEq, Repr

/-- The error of parser.go's eat: the panic message formats the expected
kind and the found token's kind; the found token is recorded whole, as the
spec's ParseError carries it. -/
structure ParseError where
  expected : TokenType
  found : Token
deriving DecidableEq, Repr

/-- Outcome of a parsing step: ok with the value and the advanced parser,
fail for the eat panic (no partial tree accompanies it), diverge when a
lexer call never returns (unterminated string literal), fuelOut when the
recursion fuel of the embedding ran out. -/
inductive ERes (α : Type) where
  | ok (a : α) (p : Parser)
  | fail (e : ParseError)
  | diverge
  | fuelOut
deriving Repr

/-- parser.go eat: on a kind match advance curr by one token, otherwise
panic with the expected kind and the found token. -/
def eat (t : TokenType) (p : Parser) : ERes Unit :=
  if p.curr.type = t then
    match NextToken p.lexer with
    | none => ERes.diverge
    | some (tok, lx) => ERes.ok () { lexer := lx, curr := tok }
  else ERes.fail { expected := t, found := p.curr }

/-- Sequencing of parsing steps: propagate fail, diverge and fuelOut. -/
def bindE {α β : Type} (r : ERes α) (f : α → Parser → ERes β) : ERes β :=
  match r with
  | .ok a p => f a p
  | .fail e => .fail e
  | .diverge => .diverge
  | .fuelOut => .fuelOut

/-- The argument loop of parser.go ParseDirective
(for p.curr.Type == TokenIdent: eat Ident, eat Colon, read the string,
eat String, strip quotes, insert), with fuel for the loop. -/
def ParseDirectiveArgs : Nat → List (Str × Str) → Parser → ERes (List (Str × Str))
  | 0, _, _ => ERes.fuelOut
  | fuel + 1, args, p =>
    if p.curr.type = TokenIdent then
      let argName := p.curr.value
      bindE (eat TokenIdent p) fun _ p1 =>
      bindE (eat TokenColon p1) fun _ p2 =>
      let argValue := p2.curr.value
      bindE (eat TokenString p2) fun _ p3 =>
      ParseDirectiveArgs fuel (mapInsert args argName (trimQuotes argValue)) p3
    else ERes.ok args p

/-- parser.go ParseDirective: eat At, read the name, eat Ident, then the
optional parenthesised argument list; the node never carries directives or
a selection set. -/
def ParseDirective (fuel : Nat) (p : Parser) : ERes Node :=
  bindE (eat TokenAt p) fun _ p1 =>
  let name := p1.curr.value
  bindE (eat TokenIdent p1) fun _ p2 =>
  if p2.curr.type = TokenParenL then
    bindE (eat TokenParenL p2) fun _ p3 =>
    bindE (ParseDirectiveArgs fuel [] p3) fun args p4 =>
    bindE (eat TokenParenR p4) fun _ p5 =>
    ERes.ok (Node.mk NodeDirective name args [] []) p5
  else
    ERes.ok (Node.mk NodeDirective name [] [] []) p2

/-- The directive loops of parser.go ParseField and ParseQuery
(for p.curr.Type == TokenAt: append p.ParseDirective()), with fuel. -/
def ParseDirectiveList : Nat → List Node → Parser → ERes (List Node)
  | 0, _, _ => ERes.fuelOut
  | fuel + 1, ds, p =>
    if p.curr.type = TokenAt then
      bindE (ParseDirective fuel p) fun d p1 =>
      ParseDirectiveList fuel (ds ++ [d]) p1
    else ERes.ok ds p

/-- The argument block of parser.go ParseField (if p.curr.Type ==
TokenParenL: exactly one Ident Colon String triple between the
parentheses), extracted as a helper. -/
def ParseFieldArgs (p : Parser) : ERes (List (Str × Str)) :=
  if p.curr.type = TokenParenL then
    bindE (eat TokenParenL p) fun _ p1 =>
    let argName := p1.curr.value
    bindE (eat TokenIdent p1) fun _ p2 =>
    bindE (eat TokenColon p2) fun _ p3 =>
    let argValue := p3.curr.value
    bindE (eat TokenString p3) fun _ p4 =>
    bindE (eat TokenParenR p4) fun _ p5 =>
    ERes.ok (mapInsert [] argName (trimQuotes argValue)) p5
  else ERes.ok [] p

mutual

/-- parser.go ParseField: name, optional single argument, directive loop,
optional braced selection set. -/
def ParseField : Nat → Parser → ERes Node
  | 0, _ => ERes.fuelOut
  | fuel + 1, p =>
    let name := p.curr.value
    bindE (eat TokenIdent p) fun _ p1 =>
    bindE (ParseFieldArgs p1) fun args p2 =>
    bindE (ParseDirectiveList fuel [] p2) fun dirs p3 =>
    if p3.curr.type = TokenBraceL then
      bindE (eat TokenBraceL p3) fun _ p4 =>
      bindE (ParseFieldList fuel [] p4) fun sels p5 =>
      bindE (eat TokenBraceR p5) fun _ p6 =>
      ERes.ok (Node.mk NodeField name args dirs sels) p6
    else
      ERes.ok (Node.mk NodeField name args dirs []) p3

/-- The selection-set loops of parser.go ParseField and ParseQuery
(for p.curr.Type == TokenIdent: append p.ParseField()). -/
def ParseFieldList : Nat → List Node → Parser → ERes (List Node)
  | 0, _, _ => ERes.fuelOut
  | fuel + 1, fs, p =>
    if p.curr.type = TokenIdent then
      bindE (ParseField fuel p) fun f p1 =>
      ParseFieldList fuel (fs ++ [f]) p1
    else ERes.ok fs p

end

/-- parser.go ParseQuery: eat the operation keyword (any identifier), read
the name, eat Ident, directive loop, brace-enclosed field list. -/
def ParseQuery (fuel : Nat) (p : Parser) : ERes Node :=
  bindE (eat TokenIdent p) fun _ p1 =>
  let name := p1.curr.value
  bindE (eat TokenIdent p1) fun _ p2 =>
  bindE (ParseDirectiveList fuel [] p2) fun dirs p3 =>
  bindE (eat TokenBraceL p3) fun _ p4 =>
  bindE (ParseFieldList fuel [] p4) fun sels p5 =>
  bindE (eat TokenBraceR p5) fun _ p6 =>
  ERes.ok (Node.mk NodeQuery name [] dirs sels) p6

/-- parser.go NewParser: a fresh lexer and one NextToken for the initial
lookahead; none when that very first token scan never returns. -/
def NewParser (input : Str) : Option Parser :=
  match NextToken (NewLexer input) with
  | none => none
  | some (tok, lx) => some { lexer := lx, curr := tok }

/-- The parse entry point of the spec: NewParser then ParseQuery. -/
def parse (fuel : Nat) (input : Str) : ERes Node :=
  match NewParser input with
  | none => ERes.diverge
  | some p => ParseQuery fuel p

/-- The string form of a Go NodeType constant, as Print interpolates it. -/
def NodeType.str : NodeType → Str
  | .NodeQuery => chars "Query"
  | .NodeField => chars "Field"
  | .NodeDirective => chars "Directive"

mutual

/-- parser.go Print, with the enumeration order of each Go map[string]string
made explicit: sigma is the order in which a run of the loop
for argName, argValue := range arguments visits the map's entries (Go
randomizes that order per run; any sigma that permutes the entries models
one run). -/
def PrintWith (sigma : List (Str × Str) → List (Str × Str)) :
    Node → Str → Str
  | .mk t name args dirs sels, indent =>
    (indent ++ t.str ++ chars ": " ++ name ++ ['\n'])
    ++ ((sigma args).map (fun kv =>
          indent ++ chars "  Arg: " ++ kv.1 ++ chars " = " ++ kv.2 ++ ['\n'])).flatten
    ++ (dirs.map (fun d =>
          (indent ++ chars "  Directive: @" ++ d.Name ++ ['\n'])
          ++ ((sigma d.Arguments).map (fun kv =>
                indent ++ chars "    Arg: " ++ kv.1 ++ chars " = " ++ kv.2 ++ ['\n'])).flatten)).flatten
    ++ PrintList sigma sels (indent ++ chars "  ")

/-- The children loop at the end of Print: each selection-set child rendered
at one more indent level, in order. -/
def PrintList (sigma : List (Str × Str) → List (Str × Str)) :
    List Node → Str → Str
  | [], _ => []
  | c :: cs, indent => PrintWith sigma c indent ++ PrintList sigma cs indent

end

/-- The render entry point of the spec: Print with the empty indent, argument
maps enumerated in insertion order. -/
def render (n : Node) : Str := PrintWith (fun m => m) n []

/-- Lexer states reachable through NewLexer, readChar and NextToken: the
cursor sits one past the character held in currentChar, and has moved at
most one past the end of the input. -/
def Wf (l : Lexer) : Prop :=
  1 ≤ l.position ∧ l.position ≤ l.input.length + 1 ∧
  l.currentChar = l.input.getD (l.position - 1) nul

instance (l : Lexer) : Decidable (Wf l) := by
  unfold Wf
  infer_instance

/-- One NextToken call, keeping the advanced lexer state (unchanged when the
call never returns). -/
def lexStep (l : Lexer) : Lexer :=
  match NextToken l with
  | some (_, l') => l'
  | none => l

/-- n successive NextToken calls. -/
def lexSteps : Nat → Lexer → Lexer
  | 0, l => l
  | n + 1, l => lexSteps n (lexStep l)

/-- A node of the shape ParseDirective builds: no directives of its own and
no selection set. -/
def dirLeaf (d : Node) : Bool := d.Directives.isEmpty && d.SelectionSet.isEmpty

mutual

/-- Every Directive node attached anywhere in the tree (to the root, to a
field, at any depth) has an empty selection set and no nested directives. -/
def nodeOK : Node → Bool
  | .mk _ _ _ dirs sels => dirs.all dirLeaf && nodeListOK sels

def nodeListOK : List Node → Bool
  | [] => true
  | c :: cs => nodeOK c && nodeListOK cs

end

mutual

/-- Every arguments map in the tree (of the node itself and of each of its
directives, recursively) has at most one entry, so that the enumeration
order of the Go maps cannot matter. -/
def argsSmall : Node → Bool
  | .mk _ _ args dirs sels =>
    decide (args.length ≤ 1) &&
    dirs.all (fun d => decide (d.Arguments.length ≤ 1)) &&
    argsSmallList sels

def argsSmallList : List Node → Bool
  | [] => true
  | c :: cs => argsSmall c && argsSmallList cs

end

/-- The token stream in front of parser state p spells out the argument
triples ts (name, colon, raw string value) and then a non-identifier token,
leaving the parser at q: the exact situation ParseDirectiveArgs's loop
consumes. -/
inductive ArgStream : Parser → List (Str × Str) → Parser → Prop where
  | nil : ∀ p, p.curr.type ≠ TokenIdent → ArgStream p [] p
  | cons : ∀ p p1 p2 p3 k w ts q,
      p.curr.type = TokenIdent → p.curr.value = k →
      eat TokenIdent p = ERes.ok () p1 →
      eat TokenColon p1 = ERes.ok () p2 →
      p2.curr.value = w →
      eat TokenString p2 = ERes.ok () p3 →
      ArgStream p3 ts q →
      ArgStream p ((k, w) :: ts) q

/-- Left-to-right insertion of quote-trimmed argument triples, as the
directive argument loop performs it. -/
def insertAll (args : List (Str × Str)) (ts : List (Str × Str)) : List (Str × Str) :=
  ts.foldl (fun m kv => mapInsert m kv.1 (trimQuotes kv.2)) args

/-- The raw value of the last triple in ts that binds the name k. -/
def lastVal (ts : List (Str × Str)) (k : Str) : Option Str :=
  mapLookup ts.reverse k

/-- Simulation relation for appending trailing text t: the extended-input
lexer state mirrors the original exactly while the cursor is still inside
the original input. -/
def LexSync (t : Str) (l l' : Lexer) : Prop :=
  l'.input = l.input ++ t ∧ l'.position = l.position ∧ l'.currentChar = l.currentChar ∧
  l.position ≤ l.input.length ∧ Wf l ∧ Wf l'

/-- The original run has just read one character past its own input (so its
current character is the rune 0), while the extended run read the first
character of the appended text instead. -/
def LexPast (t : Str) (l l' : Lexer) : Prop :=
  l'.input = l.input ++ t ∧ l'.position = l.position ∧
  l.position = l.input.length + 1 ∧ l.currentChar = nul ∧ Wf l'

/-- A lexer state of the original run whose cursor has run past its input:
every further token it produces is EndOfInput. -/
def OrigPast (l : Lexer) : Prop :=
  l.input.length < l.position ∧ l.currentChar = nul ∧ Wf l

/-- Parser states in simulation: same lookahead token, related lexers. -/
def PSync (t : Str) (p p' : Parser) : Prop :=
  p'.curr = p.curr ∧ (LexSync t p.lexer p'.lexer ∨ LexPast t p.lexer p'.lexer)

/-- A degraded original parser state: its lexer ran past the end, so all the
tokens it will ever fetch again are EndOfInput. -/
def Degraded (p : Parser) : Prop := OrigPast p.lexer

/-- A degraded parser state together with what its lookahead can still be:
the token scanned while crossing the end of the input is either EndOfInput
or the identifier that ran off the end. -/
def DegradedE (p : Parser) : Prop :=
  Degraded p ∧ (p.curr.type = TokenEOF ∨ p.curr.type = TokenIdent)

/-- Inversion of sequencing: when a bindE chain ends ok, its first step
ended ok at some intermediate parser state. -/
lemma bindE_ok {α β : Type} {r : ERes α} {f : α → Parser → ERes β} {b : β} {q : Parser}
    (h : bindE r f = ERes.ok b q) : ∃ a p, r = ERes.ok a p ∧ f a p = ERes.ok b q := by
  cases r with
  | ok a p => exact ⟨a, p, rfl, h⟩
  | fail e => simp [bindE] at h
  | diverge => simp [bindE] at h
  | fuelOut => simp [bindE] at h

/-- C1: parsing the spec's example input yields exactly the claimed tree:
a Query named GetUser, one Field child named user with arguments map
brace id maps-to 123 brace (quotes stripped), one nested leaf Field named
name with empty arguments, no directives and empty selection set.  Stated
for every sufficient recursion fuel of the embedding. -/
theorem claim1_parse_GetUser :
    ∀ n : Nat, ∃ s : Parser,
      parse (n + 10) (chars "query GetUser \x7b user(id: \"123\") \x7b name \x7d \x7d") =
        ERes.ok
          (Node.mk NodeQuery (chars "GetUser") [] []
            [Node.mk NodeField (chars "user") [(chars "id", chars "123")] []
              [Node.mk NodeField (chars "name") [] [] []]]) s :=
  fun _ => ⟨_, rfl⟩

/-- C2: whenever eat sees a lookahead whose kind differs from the expected
kind, it fails at once with the expected kind and the found token (the ERes
fail constructor carries no tree); in particular parsing the input
query-brace-brace fails with expected Identifier and found the open-brace
token, at every fuel. -/
theorem claim2_eat_mismatch (t : TokenType) (p : Parser) (h : p.curr.type ≠ t) :
    eat t p = ERes.fail { expected := t, found := p.curr } ∧
    ∀ fuel : Nat, parse fuel (chars "query \x7b \x7d") =
      ERes.fail { expected := TokenIdent,
                  found := { type := TokenBraceL, value := chars "\x7b" } } := by
  constructor
  · unfold eat
    rw [if_neg h]
  · intro fuel
    rfl

/-- C2 witness: the general part applied at the open-brace lookahead that
the concrete input produces. -/
theorem claim2_witness :
    eat TokenIdent
        { lexer := NewLexer [], curr := { type := TokenBraceL, value := chars "\x7b" } } =
      ERes.fail { expected := TokenIdent,
                  found := { type := TokenBraceL, value := chars "\x7b" } } ∧
    ∀ fuel : Nat, parse fuel (chars "query \x7b \x7d") =
      ERes.fail { expected := TokenIdent,
                  found := { type := TokenBraceL, value := chars "\x7b" } } :=
  claim2_eat_mismatch TokenIdent
    { lexer := NewLexer [], curr := { type := TokenBraceL, value := chars "\x7b" } }
    (by decide)

/-- C4 counterexample: scanning the terminated string literal quote-a-b-quote
returns a StringLiteral token whose text is a-b-quote: the closing quote is
included but the opening quote is not, so the text is not the full span with
both quotes that the claim states. -/
theorem claim4_counterexample :
    NextToken (NewLexer (chars "\"ab\"")) =
      some ({ type := TokenString, value := chars "ab\"" },
            { input := chars "\"ab\"", position := 5, currentChar := nul }) ∧
    chars "ab\"" ≠ chars "\"ab\"" :=
  ⟨rfl, by decide⟩

/-- C8: when the current character (no whitespace to skip) is none of the
seven punctuation characters, is not a letter or underscore, and is not the
end-of-input rune, NextToken yields an EndOfInput token and no error of any
kind: the unrecognized character is passed over silently. -/
theorem claim8_unrecognized (l : Lexer)
    (h1 : goIsSpace l.currentChar = false)
    (h2 : l.currentChar ∉ (['{', '}', '(', ')', ':', '@', '"'] : List Char))
    (h3 : isLetter l.currentChar = false)
    (h4 : l.currentChar ≠ nul) :
    NextToken l = some ({ type := TokenEOF, value := [] }, l) := by
  simp only [List.mem_cons, List.mem_singleton, not_or] at h2
  obtain ⟨n1, n2, n3, n4, n5, n6, n7, -⟩ := h2
  unfold NextToken lexFuel
  rw [skipSpaces, if_neg (by simp [h1])]
  simp only [NextTokenBody, n1, n2, n3, n4, n5, n6, n7, h4, h3, if_false, ite_false,
    Bool.false_eq_true]

/-- C8 witness: the digit 7 cannot start a token and is silently swallowed. -/
theorem claim8_witness :
    NextToken (NewLexer (chars "7")) =
      some ({ type := TokenEOF, value := [] }, NewLexer (chars "7")) :=
  claim8_unrecognized (NewLexer (chars "7")) (by decide) (by decide) (by decide) (by decide)

/-- C10 counterexample: the input query-A-brace-f-brace parses successfully,
but appending the trailing text space-quote makes the parse stop succeeding
altogether: at every fuel the extended parse is fuelOut or diverges (the
lookahead scan after the closing brace runs off the end of the input inside
the unterminated string literal), so it never returns any tree, let alone
the same one. -/
theorem claim10_counterexample :
    (∀ n : Nat, ∃ s : Parser,
      parse (n + 10) (chars "query A \x7b f \x7d") =
        ERes.ok (Node.mk NodeQuery (chars "A") [] []
          [Node.mk NodeField (chars "f") [] [] []]) s) ∧
    (∀ (fuel : Nat) (n : Node) (s : Parser),
      parse fuel (chars "query A \x7b f \x7d \"") ≠ ERes.ok n s) := by
  constructor
  · intro n
    exact ⟨_, rfl⟩
  · intro fuel n s h
    match fuel with
    | 0 => exact ERes.noConfusion ((rfl : ERes.fuelOut = parse 0 (chars "query A \x7b f \x7d \"")).trans h)
    | 1 => exact ERes.noConfusion ((rfl : ERes.fuelOut = parse 1 (chars "query A \x7b f \x7d \"")).trans h)
    | 2 => exact ERes.noConfusion ((rfl : ERes.fuelOut = parse 2 (chars "query A \x7b f \x7d \"")).trans h)
    | m + 3 => exact ERes.noConfusion ((rfl : ERes.diverge = parse (m + 3) (chars "query A \x7b f \x7d \"")).trans h)

/-- C5 counterexample: a valid input whose directive has two arguments
parses to a fixed tree, but rendering that tree under two admissible
enumeration orders of the Go arguments map (Go randomizes the order of
range over a map per run) yields two different strings: the output is not
determined by the AST shape alone. -/
theorem claim5_counterexample :
    (∀ n : Nat, ∃ s : Parser,
      parse (n + 10) (chars "query A @d(x: \"1\" y: \"2\") \x7b f \x7d") =
        ERes.ok
          (Node.mk NodeQuery (chars "A") []
            [Node.mk NodeDirective (chars "d")
              [(chars "x", chars "1"), (chars "y", chars "2")] [] []]
            [Node.mk NodeField (chars "f") [] [] []]) s) ∧
    (∀ m : List (Str × Str), (List.reverse m).Perm m) ∧
    PrintWith List.reverse
        (Node.mk NodeQuery (chars "A") []
          [Node.mk NodeDirective (chars "d")
            [(chars "x", chars "1"), (chars "y", chars "2")] [] []]
          [Node.mk NodeField (chars "f") [] [] []]) [] ≠
      PrintWith (fun m => m)
        (Node.mk NodeQuery (chars "A") []
          [Node.mk NodeDirective (chars "d")
            [(chars "x", chars "1"), (chars "y", chars "2")] [] []]
          [Node.mk NodeField (chars "f") [] [] []]) [] := by
  refine ⟨fun n => ⟨_, rfl⟩, fun m => List.reverse_perm m, ?_⟩
  decide

/-- Lookup after a Go map insertion: the inserted key now maps to the new
value, every other key is unaffected. -/
lemma mapLookup_mapInsert (m : List (Str × Str)) (ki v kq : Str) :
    mapLookup (mapInsert m ki v) kq =
      if ki = kq then some v else mapLookup m kq := by
  induction m with
  | nil => simp [mapInsert, mapLookup]
  | cons hd tl ih =>
    obtain ⟨k0, v0⟩ := hd
    by_cases h0 : k0 = ki
    · subst h0
      by_cases hq : k0 = kq <;> simp [mapInsert, mapLookup, hq]
    · have h0' : ¬ ki = k0 := fun h => h0 h.symm
      by_cases hq : k0 = kq
      · subst hq
        simp [mapInsert, mapLookup, h0, h0']
      · simp [mapInsert, mapLookup, h0, hq, ih]

/-- Lookup distributes over list append, first hit wins. -/
lemma mapLookup_append (a b : List (Str × Str)) (k : Str) :
    mapLookup (a ++ b) k =
      match mapLookup a k with
      | some v => some v
      | none => mapLookup b k := by
  induction a with
  | nil => simp [mapLookup]
  | cons hd tl ih =>
    obtain ⟨k0, v0⟩ := hd
    by_cases h : k0 = k <;> simp [mapLookup, h, ih]

/-- Inserting a list of quote-trimmed triples left to right: a name ends up
bound to the trimmed value of its last occurrence; names that never occur
keep their prior binding. -/
lemma mapLookup_insertAll (ts : List (Str × Str)) (args : List (Str × Str)) (k : Str) :
    mapLookup (insertAll args ts) k =
      match lastVal ts k with
      | some w => some (trimQuotes w)
      | none => mapLookup args k := by
  induction ts generalizing args with
  | nil => simp [insertAll, lastVal, mapLookup]
  | cons hd tl ih =>
    obtain ⟨k0, w0⟩ := hd
    show mapLookup (insertAll (mapInsert args k0 (trimQuotes w0)) tl) k = _
    rw [ih]
    have hv : lastVal ((k0, w0) :: tl) k =
        match lastVal tl k with
        | some v => some v
        | none => mapLookup [(k0, w0)] k := by
      unfold lastVal
      rw [List.reverse_cons, mapLookup_append]
    rw [hv]
    cases hl : lastVal tl k with
    | some w => rfl
    | none =>
      by_cases h0 : k0 = k <;> simp [mapLookup, mapLookup_mapInsert, h0]

/-- The directive argument loop consumes exactly the triples its token
stream spells out, inserting them left to right. -/
lemma ParseDirectiveArgs_stream (p q : Parser) (ts : List (Str × Str))
    (hs : ArgStream p ts q) :
    ∀ (fuel : Nat) (args : List (Str × Str)), ts.length + 1 ≤ fuel →
      ParseDirectiveArgs fuel args p = ERes.ok (insertAll args ts) q := by
  induction hs with
  | nil p hne =>
    intro fuel args hf
    obtain ⟨f, rfl⟩ : ∃ f, fuel = f + 1 := ⟨fuel - 1, by omega⟩
    unfold ParseDirectiveArgs
    rw [if_neg hne]
    rfl
  | cons p p1 p2 p3 k w ts q hty hval h1 h2 hw h3 _ ih =>
    intro fuel args hf
    obtain ⟨f, rfl⟩ : ∃ f, fuel = f + 1 := ⟨fuel - 1, by omega⟩
    unfold ParseDirectiveArgs
    rw [if_pos hty, hval, h1]
    simp only [bindE]
    rw [h2]
    simp only [bindE]
    rw [hw, h3]
    simp only [bindE]
    refine ih f (mapInsert args k (trimQuotes w)) ?_
    simp only [List.length_cons] at hf
    omega

/-- C9: when a directive's parenthesised argument list reuses a name across
several triples, the loop's resulting map binds that name to the (trimmed)
value of the last occurrence: each insertion overwrites the previous
binding.  ts is the triple list the token stream in front of p spells out,
and lastVal picks the last value bound to k in it. -/
theorem claim9_last_occurrence_wins (p q : Parser) (ts : List (Str × Str)) (k w : Str)
    (fuel : Nat) (args : List (Str × Str))
    (hs : ArgStream p ts q) (hfuel : ts.length + 1 ≤ fuel)
    (hlast : lastVal ts k = some w) :
    ParseDirectiveArgs fuel args p = ERes.ok (insertAll args ts) q ∧
    mapLookup (insertAll args ts) k = some (trimQuotes w) := by
  refine ⟨ParseDirectiveArgs_stream p q ts hs fuel args hfuel, ?_⟩
  rw [mapLookup_insertAll, hlast]

/-- C9 witness: the argument list x colon string-1 x colon string-2 followed
by a closing parenthesis; the final map binds x to 2 (the raw token values
carry the closing quote, trimmed on insertion). -/
theorem claim9_witness :
    ParseDirectiveArgs 3 []
        { lexer := { input := chars "x: \"1\" x: \"2\")", position := 2, currentChar := ':' },
          curr := { type := TokenIdent, value := chars "x" } } =
      ERes.ok (insertAll [] [(chars "x", chars "1\""), (chars "x", chars "2\"")])
        { lexer := { input := chars "x: \"1\" x: \"2\")", position := 15, currentChar := nul },
          curr := { type := TokenParenR, value := chars ")" } } ∧
    mapLookup (insertAll [] [(chars "x", chars "1\""), (chars "x", chars "2\"")]) (chars "x") =
      some (trimQuotes (chars "2\"")) := by
  have hs : ArgStream
      { lexer := { input := chars "x: \"1\" x: \"2\")", position := 2, currentChar := ':' },
        curr := { type := TokenIdent, value := chars "x" } }
      [(chars "x", chars "1\""), (chars "x", chars "2\"")]
      { lexer := { input := chars "x: \"1\" x: \"2\")", position := 15, currentChar := nul },
        curr := { type := TokenParenR, value := chars ")" } } := by
    refine ArgStream.cons _ _ _ _ _ _ _ _ (by decide) rfl rfl rfl rfl rfl ?_
    refine ArgStream.cons _ _ _ _ _ _ _ _ (by decide) rfl rfl rfl rfl rfl ?_
    exact ArgStream.nil _ (by decide)
  exact claim9_last_occurrence_wins _ _ _ (chars "x") (chars "2\"") 3 [] hs
    (by decide) (by decide)

/-- readChar keeps a state well formed as long as the cursor was not already
past the end of the input. -/
lemma readChar_wf (l : Lexer) (hpos : l.position ≤ l.input.length) : Wf (readChar l) := by
  refine ⟨by simp [readChar], by simp [readChar]; omega, by simp [readChar]⟩

/-- Once a reachable cursor is past the end of the input, the current
character is the rune 0. -/
lemma wf_past_currentChar (l : Lexer) (h : Wf l) (hpos : l.input.length < l.position) :
    l.currentChar = nul := by
  obtain ⟨h1, h2, h3⟩ := h
  rw [h3]
  exact List.getD_eq_default _ _ (by omega)

/-- Once a reachable cursor is past the end of its input, NextToken answers
EndOfInput without moving. -/
lemma nextToken_eof_past (l : Lexer) (h : Wf l) (hpos : l.input.length < l.position) :
    NextToken l = some ({ type := TokenEOF, value := [] }, l) := by
  have hc : l.currentChar = nul := wf_past_currentChar l h hpos
  have n1 : ¬(l.currentChar = '{') := by rw [hc]; decide
  have n2 : ¬(l.currentChar = '}') := by rw [hc]; decide
  have n3 : ¬(l.currentChar = '(') := by rw [hc]; decide
  have n4 : ¬(l.currentChar = ')') := by rw [hc]; decide
  have n5 : ¬(l.currentChar = ':') := by rw [hc]; decide
  have n6 : ¬(l.currentChar = '@') := by rw [hc]; decide
  have n7 : ¬(l.currentChar = '"') := by rw [hc]; decide
  unfold NextToken lexFuel
  rw [skipSpaces, if_neg (by rw [hc]; decide)]
  simp only [NextTokenBody, n1, n2, n3, n4, n5, n6, n7, if_false, ite_false,
    Bool.false_eq_true]
  rw [if_pos hc]

/-- C6: once the scanner's cursor has exhausted the input, NextToken
returns the EndOfInput token with the state unchanged, on that call and on
every later call: NextToken is idempotent at end of stream. -/
theorem claim6_eof_forever (l : Lexer) (h : Wf l) (hpos : l.input.length < l.position) :
    NextToken l = some ({ type := TokenEOF, value := [] }, l) ∧
    ∀ n : Nat,
      NextToken (lexSteps n l) = some ({ type := TokenEOF, value := [] }, lexSteps n l) := by
  have main := nextToken_eof_past l h hpos
  have hstep : lexStep l = l := by
    unfold lexStep
    rw [main]
  have hsteps : ∀ n, lexSteps n l = l := by
    intro n
    induction n with
    | zero => rfl
    | succ n ih =>
      show lexSteps n (lexStep l) = l
      rw [hstep]
      exact ih
  refine ⟨main, fun n => ?_⟩
  rw [hsteps n]
  exact main

/-- C6 witness: an exhausted one-character input keeps answering EndOfInput. -/
theorem claim6_witness :
    NextToken { input := chars "a", position := 2, currentChar := nul } =
      some ({ type := TokenEOF, value := [] },
            { input := chars "a", position := 2, currentChar := nul }) ∧
    ∀ n : Nat,
      NextToken (lexSteps n { input := chars "a", position := 2, currentChar := nul }) =
        some ({ type := TokenEOF, value := [] },
              lexSteps n { input := chars "a", position := 2, currentChar := nul }) :=
  claim6_eof_forever _ (by decide) (by decide)

/-- The string-literal loop never exits when no closing quote remains in the
unread input: at every fuel it fails, modelling Go's infinite loop. -/
lemma scanStringEnd_none : ∀ (fuel : Nat) (l : Lexer),
    l.currentChar ≠ '"' → '"' ∉ l.input.drop l.position →
    scanStringEnd fuel l = none := by
  intro fuel
  induction fuel with
  | zero => intro l _ _; rfl
  | succ fuel ih =>
    intro l hq hmem
    unfold scanStringEnd
    rw [if_neg hq]
    by_cases hlt : l.position < l.input.length
    · rw [List.drop_eq_getElem_cons hlt] at hmem
      simp only [List.mem_cons, not_or] at hmem
      obtain ⟨hne, hmem'⟩ := hmem
      apply ih
      · show l.input.getD l.position nul ≠ '"'
        rw [List.getD_eq_getElem _ _ hlt]
        exact fun hh => hne hh.symm
      · show '"' ∉ l.input.drop (l.position + 1)
        exact hmem'
    · apply ih
      · show l.input.getD l.position nul ≠ '"'
        rw [List.getD_eq_default _ _ (by omega)]
        decide
      · show '"' ∉ l.input.drop (l.position + 1)
        rw [List.drop_eq_nil_of_le (by omega)]
        simp

/-- C3 counterexample: on the input quote-a-b-c (a string literal with no
closing quote) NextToken does not return: the embedding yields none, and the
string-scanning loop fails at every fuel - the scan does not stop at the end
of the input, it runs forever. -/
theorem claim3_counterexample :
    NextToken (NewLexer (chars "\"abc")) = none ∧
    ∀ fuel : Nat, scanStringEnd fuel (readChar (NewLexer (chars "\"abc"))) = none := by
  refine ⟨rfl, fun fuel => ?_⟩
  apply scanStringEnd_none
  · decide
  · decide

/-- The whitespace loop always exits within the stated fuel from any well
formed state: each step advances the cursor, and past the end of the input
the current character is the rune 0, which is not whitespace. -/
lemma skipSpaces_some : ∀ (fuel : Nat) (l : Lexer), Wf l →
    l.input.length + 2 ≤ fuel + l.position →
    ∃ l1, skipSpaces fuel l = some l1 ∧ l1.input = l.input ∧
      l.position ≤ l1.position ∧ Wf l1 ∧ goIsSpace l1.currentChar = false := by
  intro fuel
  induction fuel with
  | zero =>
    intro l hwf hsum
    obtain ⟨h1, h2, h3⟩ := hwf
    omega
  | succ fuel ih =>
    intro l hwf hsum
    by_cases hsp : goIsSpace l.currentChar = true
    · obtain ⟨h1, h2, h3⟩ := hwf
      have hle : l.position ≤ l.input.length := by
        by_contra hgt
        rw [h3, List.getD_eq_default _ _ (by omega)] at hsp
        exact absurd hsp (by decide)
      unfold skipSpaces
      rw [if_pos hsp]
      obtain ⟨l1, heq, hinp, hpos, hwf1, hns⟩ :=
        ih (readChar l) (readChar_wf l hle) (by simp [readChar]; omega)
      refine ⟨l1, heq, ?_, ?_, hwf1, hns⟩
      · simpa [readChar] using hinp
      · simp [readChar] at hpos
        omega
    · unfold skipSpaces
      rw [if_neg hsp]
      exact ⟨l, rfl, rfl, Nat.le_refl _, hwf, by simpa using hsp⟩

/-- The identifier loop always exits within the stated fuel from any well
formed state (the rune 0 past the end of the input is not a letter or
digit). -/
lemma scanIdentEnd_some : ∀ (fuel : Nat) (l : Lexer), Wf l →
    l.input.length + 2 ≤ fuel + l.position →
    ∃ l1, scanIdentEnd fuel l = some l1 ∧ l1.input = l.input ∧
      l.position ≤ l1.position ∧ Wf l1 := by
  intro fuel
  induction fuel with
  | zero =>
    intro l hwf hsum
    obtain ⟨h1, h2, h3⟩ := hwf
    omega
  | succ fuel ih =>
    intro l hwf hsum
    by_cases hld : (isLetter l.currentChar || isDigit l.currentChar) = true
    · obtain ⟨h1, h2, h3⟩ := hwf
      have hle : l.position ≤ l.input.length := by
        by_contra hgt
        rw [h3, List.getD_eq_default _ _ (by omega)] at hld
        exact absurd hld (by decide)
      unfold scanIdentEnd
      rw [if_pos hld]
      obtain ⟨l1, heq, hinp, hpos, hwf1⟩ :=
        ih (readChar l) (readChar_wf l hle) (by simp [readChar]; omega)
      refine ⟨l1, heq, ?_, ?_, hwf1⟩
      · simpa [readChar] using hinp
      · simp [readChar] at hpos
        omega
    · unfold scanIdentEnd
      rw [if_neg hld]
      exact ⟨l, rfl, rfl, Nat.le_refl _, hwf⟩

/-- C3 amended: NextToken returns on every well formed state whose unread
input (from the character under the cursor on) contains no double quote; the
only way for a call not to return is the unterminated string literal of the
counterexample. -/
theorem claim3_terminates_without_quote (l : Lexer) (hwf : Wf l)
    (hq : '"' ∉ l.input.drop (l.position - 1)) :
    ∃ r, NextToken l = some r := by
  have hwf' := hwf
  obtain ⟨w1, w2, w3⟩ := hwf'
  obtain ⟨l1, hskip, hinp, hpos, hwf1, hns⟩ :=
    skipSpaces_some (lexFuel l) l hwf (by unfold lexFuel; omega)
  obtain ⟨v1, v2, v3⟩ := hwf1
  have hq1 : '"' ∉ l1.input.drop (l1.position - 1) := by
    rw [hinp]
    intro hc
    apply hq
    have hd : l.input.drop (l1.position - 1) =
        (l.input.drop (l.position - 1)).drop ((l1.position - 1) - (l.position - 1)) := by
      rw [List.drop_drop]
      congr 1
      omega
    rw [hd] at hc
    exact List.drop_subset _ _ hc
  have hcq : l1.currentChar ≠ '"' := by
    intro hcc
    by_cases hlt : l1.position - 1 < l1.input.length
    · apply hq1
      rw [v3, List.getD_eq_getElem _ _ hlt] at hcc
      rw [List.drop_eq_getElem_cons hlt, hcc]
      exact List.mem_cons_self _ _
    · rw [v3, List.getD_eq_default _ _ (by omega)] at hcc
      exact absurd hcc (by decide)
  unfold NextToken
  rw [hskip]
  show ∃ r, NextTokenBody (lexFuel l) l1 = some r
  unfold NextTokenBody
  by_cases c1 : l1.currentChar = '{'
  · rw [if_pos c1]; exact ⟨_, rfl⟩
  rw [if_neg c1]
  by_cases c2 : l1.currentChar = '}'
  · rw [if_pos c2]; exact ⟨_, rfl⟩
  rw [if_neg c2]
  by_cases c3 : l1.currentChar = '('
  · rw [if_pos c3]; exact ⟨_, rfl⟩
  rw [if_neg c3]
  by_cases c4 : l1.currentChar = ')'
  · rw [if_pos c4]; exact ⟨_, rfl⟩
  rw [if_neg c4]
  by_cases c5 : l1.currentChar = ':'
  · rw [if_pos c5]; exact ⟨_, rfl⟩
  rw [if_neg c5]
  by_cases c6 : l1.currentChar = '@'
  · rw [if_pos c6]; exact ⟨_, rfl⟩
  rw [if_neg c6, if_neg hcq]
  by_cases c8 : l1.currentChar = nul
  · rw [if_pos c8]; exact ⟨_, rfl⟩
  rw [if_neg c8]
  by_cases c9 : isLetter l1.currentChar = true
  · rw [if_pos c9]
    obtain ⟨l2, hident, _, _, _⟩ :=
      scanIdentEnd_some (lexFuel l) l1 ⟨v1, v2, v3⟩
        (by unfold lexFuel; rw [hinp]; omega)
    rw [hident]
    exact ⟨_, rfl⟩
  · rw [if_neg c9]
    exact ⟨_, rfl⟩

/-- C3 witness: a quote-free input scans to a token. -/
theorem claim3_witness :
    ∃ r, NextToken (NewLexer (chars "query x")) = some r :=
  claim3_terminates_without_quote (NewLexer (chars "query x")) (by decide) (by decide)

/-- The character under index n when the rest of the input from n is known. -/
lemma getD_of_drop_cons {xs : Str} {n : Nat} {c : Char} {ys : Str}
    (h : xs.drop n = c :: ys) (d : Char) : xs.getD n d = c := by
  have hlt : n < xs.length := by
    by_contra hge
    rw [List.drop_eq_nil_of_le (by omega)] at h
    exact List.noConfusion h
  rw [List.getD_eq_getElem _ _ hlt]
  have hd := List.drop_eq_getElem_cons hlt
  rw [hd] at h
  have h2 : xs[n]? = some c := by simpa using congrArg List.head? h
  rw [List.getElem?_eq_getElem hlt] at h2
  exact Option.some.inj h2

/-- Advancing one character into a known rest of the input. -/
lemma drop_succ_of_drop_cons {xs : Str} {n : Nat} {c : Char} {ys : Str}
    (h : xs.drop n = c :: ys) : xs.drop (n + 1) = ys := by
  have hd : xs.drop (n + 1) = (xs.drop n).drop 1 := (List.drop_drop 1 n xs).symm
  rw [hd, h]
  rfl

/-- Walking the string loop across the quote-free span s: the loop stops
exactly on the first closing quote after it. -/
lemma scanStringEnd_walk : ∀ (s t : Str) (fuel : Nat) (l : Lexer),
    1 ≤ l.position →
    l.currentChar = l.input.getD (l.position - 1) nul →
    l.input.drop (l.position - 1) = s ++ '"' :: t →
    '"' ∉ s →
    s.length + 1 ≤ fuel →
    scanStringEnd fuel l =
      some { input := l.input, position := l.position + s.length, currentChar := '"' } := by
  intro s
  induction s with
  | nil =>
    intro t fuel l hp hc hd hq hf
    obtain ⟨f, rfl⟩ : ∃ f, fuel = f + 1 := ⟨fuel - 1, by omega⟩
    have hcc : l.currentChar = '"' := by
      rw [hc]
      exact getD_of_drop_cons hd nul
    unfold scanStringEnd
    rw [if_pos hcc]
    obtain ⟨i, p, c⟩ := l
    simp only at hcc
    simp [hcc]
  | cons ch s ih =>
    intro t fuel l hp hc hd hq hf
    obtain ⟨f, rfl⟩ : ∃ f, fuel = f + 1 := ⟨fuel - 1, by omega⟩
    simp only [List.mem_cons, not_or] at hq
    obtain ⟨hq1, hq2⟩ := hq
    have hcc : l.currentChar = ch := by
      rw [hc]
      exact getD_of_drop_cons (by simpa using hd) nul
    unfold scanStringEnd
    rw [if_neg (by rw [hcc]; exact fun hh => hq1 hh.symm)]
    have hrec := ih t f (readChar l) (by simp [readChar]) (by simp [readChar])
        (by
          show l.input.drop ((l.position + 1) - 1) = s ++ '"' :: t
          have hstep := drop_succ_of_drop_cons (n := l.position - 1) (by simpa using hd)
          rw [Nat.sub_add_cancel hp] at hstep
          simpa using hstep)
        hq2 (by simp at hf; omega)
    rw [hrec]
    simp only [readChar, List.length_cons]
    congr 2
    omega

/-- Taking one character past a known span. -/
lemma take_len_succ (s : Str) (c : Char) (t : Str) :
    (s ++ c :: t).take (s.length + 1) = s ++ [c] := by
  induction s with
  | nil => rfl
  | cons a s ih => simpa [List.take_succ_cons] using ih

/-- The whitespace loop exits at once on a non-space current character. -/
lemma skipSpaces_not_space (l : Lexer) (h : goIsSpace l.currentChar = false)
    (fuel : Nat) : skipSpaces (fuel + 1) l = some l := by
  unfold skipSpaces
  rw [if_neg (by simp [h])]

/-- The string-literal branch of NextTokenBody: on a double quote, consume
it, run the string loop, and emit the slice from the character after the
opening quote through the loop's stopping point. -/
lemma NextTokenBody_string (F : Nat) (l1 : Lexer) (hc : l1.currentChar = '"')
    (l3 : Lexer) (hscan : scanStringEnd F (readChar l1) = some l3) :
    NextTokenBody F l1 =
      some ({ type := TokenString,
              value := slice l1.input ((readChar l1).position - 1) l3.position },
            readChar l3) := by
  unfold NextTokenBody
  rw [if_neg (by rw [hc]; decide), if_neg (by rw [hc]; decide), if_neg (by rw [hc]; decide),
      if_neg (by rw [hc]; decide), if_neg (by rw [hc]; decide), if_neg (by rw [hc]; decide),
      if_pos hc]
  simp only [hscan]

/-- C4 amended: scanning a string literal with a closing quote yields a
StringLiteral token whose text is the literal's content followed by the
closing quote: the closing quote is part of the text, the opening quote is
not.  Stated for any terminated literal at the start of the input (content
s1, rest of input s2). -/
theorem claim4_string_token_span (s1 s2 : Str) (hq : '"' ∉ s1) :
    ∃ l', NextToken (NewLexer ('"' :: s1 ++ '"' :: s2)) =
      some ({ type := TokenString, value := s1 ++ ['"'] }, l') := by
  have hslice : slice ('"' :: s1 ++ '"' :: s2) 1 (2 + s1.length) = s1 ++ ['"'] := by
    unfold slice
    rw [show 2 + s1.length = (s1.length + 1) + 1 from by omega]
    rw [show ('"' :: s1 ++ '"' :: s2) = '"' :: (s1 ++ '"' :: s2) from rfl]
    rw [List.take_succ_cons, take_len_succ]
    rfl
  have hmain : NextToken { input := '"' :: s1 ++ '"' :: s2, position := 1, currentChar := '"' } =
      some ({ type := TokenString, value := s1 ++ ['"'] },
            readChar { input := '"' :: s1 ++ '"' :: s2, position := 2 + s1.length,
                       currentChar := '"' }) := by
    have hskip : skipSpaces
        (lexFuel { input := '"' :: s1 ++ '"' :: s2, position := 1, currentChar := '"' })
        { input := '"' :: s1 ++ '"' :: s2, position := 1, currentChar := '"' } =
        some { input := '"' :: s1 ++ '"' :: s2, position := 1, currentChar := '"' } :=
      skipSpaces_not_space _ (by decide : goIsSpace '"' = false) _
    have hwalk := scanStringEnd_walk s1 s2
        (lexFuel { input := '"' :: s1 ++ '"' :: s2, position := 1, currentChar := '"' })
        (readChar { input := '"' :: s1 ++ '"' :: s2, position := 1, currentChar := '"' })
        (by simp [readChar]) (by simp [readChar]) (by simp [readChar]) hq
        (by simp [readChar, lexFuel]; omega)
    unfold NextToken
    rw [hskip]
    show NextTokenBody _ _ = _
    rw [NextTokenBody_string _ _ rfl _ hwalk]
    show some (Token.mk TokenString (slice ('"' :: s1 ++ '"' :: s2) 1 (2 + s1.length)),
          readChar { input := '"' :: s1 ++ '"' :: s2, position := 2 + s1.length,
                     currentChar := '"' }) =
        some (Token.mk TokenString (s1 ++ ['"']),
          readChar { input := '"' :: s1 ++ '"' :: s2, position := 2 + s1.length,
                     currentChar := '"' })
    rw [hslice]
  exact ⟨_, hmain⟩

/-- C4 witness: the literal quote-a-b-quote scans to text a-b-quote. -/
theorem claim4_witness :
    ∃ l', NextToken (NewLexer ('"' :: chars "ab" ++ '"' :: [])) =
      some ({ type := TokenString, value := chars "ab" ++ ['"'] }, l') :=
  claim4_string_token_span (chars "ab") [] (by decide)

/-- Every node ParseDirective returns carries no directives of its own and
no selection set. -/
lemma ParseDirective_leaf (fuel : Nat) (p : Parser) (d : Node) (s : Parser)
    (h : ParseDirective fuel p = ERes.ok d s) : dirLeaf d = true := by
  unfold ParseDirective at h
  obtain ⟨-, p1, -, h⟩ := bindE_ok h
  obtain ⟨-, p2, -, h⟩ := bindE_ok h
  split at h
  · obtain ⟨-, p3, -, h⟩ := bindE_ok h
    obtain ⟨args, p4, -, h⟩ := bindE_ok h
    obtain ⟨-, p5, -, h⟩ := bindE_ok h
    injection h with h1 h2
    subst h1
    rfl
  · injection h with h1 h2
    subst h1
    rfl

/-- The directive loop only appends ParseDirective results. -/
lemma ParseDirectiveList_leaf : ∀ (fuel : Nat) (ds : List Node) (p : Parser)
    (r : List Node) (s : Parser),
    ParseDirectiveList fuel ds p = ERes.ok r s →
    (∀ d ∈ ds, dirLeaf d = true) → ∀ d ∈ r, dirLeaf d = true := by
  intro fuel
  induction fuel with
  | zero =>
    intro ds p r s h hds
    simp [ParseDirectiveList] at h
  | succ fuel ih =>
    intro ds p r s h hds
    unfold ParseDirectiveList at h
    split at h
    · obtain ⟨d, p1, hd, h⟩ := bindE_ok h
      refine ih _ _ _ _ h ?_
      intro x hx
      rcases List.mem_append.mp hx with hx | hx
      · exact hds x hx
      · rw [List.mem_singleton.mp hx]
        exact ParseDirective_leaf fuel p d p1 hd
    · injection h with h1 h2
      subst h1
      exact hds

/-- nodeListOK splits over append. -/
lemma nodeListOK_append (a b : List Node) :
    nodeListOK (a ++ b) = (nodeListOK a && nodeListOK b) := by
  induction a with
  | nil => simp [nodeListOK]
  | cons c cs ih => simp [nodeListOK, ih, Bool.and_assoc]

/-- Every tree ParseField returns satisfies the directive-bareness
invariant, and the field-list loop preserves it. -/
lemma ParseField_nodeOK : ∀ (fuel : Nat),
    (∀ (p : Parser) (n : Node) (s : Parser),
      ParseField fuel p = ERes.ok n s → nodeOK n = true) ∧
    (∀ (fs : List Node) (p : Parser) (r : List Node) (s : Parser),
      ParseFieldList fuel fs p = ERes.ok r s →
      nodeListOK fs = true → nodeListOK r = true) := by
  intro fuel
  induction fuel with
  | zero =>
    constructor
    · intro p n s h
      simp [ParseField] at h
    · intro fs p r s h _
      simp [ParseFieldList] at h
  | succ fuel ih =>
    obtain ⟨ihF, ihL⟩ := ih
    constructor
    · intro p n s h
      unfold ParseField at h
      obtain ⟨-, p1, -, h⟩ := bindE_ok h
      obtain ⟨args, p2, -, h⟩ := bindE_ok h
      obtain ⟨dirs, p3, hdirs, h⟩ := bindE_ok h
      have hdl : dirs.all dirLeaf = true := List.all_eq_true.mpr
        (fun d hd => ParseDirectiveList_leaf fuel [] p2 dirs p3 hdirs (by simp) d hd)
      split at h
      · obtain ⟨-, p4, -, h⟩ := bindE_ok h
        obtain ⟨sels, p5, hsels, h⟩ := bindE_ok h
        obtain ⟨-, p6, -, h⟩ := bindE_ok h
        injection h with h1 h2
        subst h1
        have h2 : nodeListOK sels = true := ihL [] p4 sels p5 hsels rfl
        show (dirs.all dirLeaf && nodeListOK sels) = true
        simp [hdl, h2]
      · injection h with h1 h2
        subst h1
        show (dirs.all dirLeaf && nodeListOK []) = true
        simp [hdl, nodeListOK]
    · intro fs p r s h hfs
      unfold ParseFieldList at h
      split at h
      · obtain ⟨f, p1, hf, h⟩ := bindE_ok h
        refine ihL _ _ _ _ h ?_
        rw [nodeListOK_append]
        have h1 : nodeOK f = true := ihF p f p1 hf
        simp [hfs, nodeListOK, h1]
      · injection h with h1 h2
        subst h1
        exact hfs

/-- C7: every Directive node anywhere in a tree that parse returns (attached
to the Query root or to any Field, at any depth) has an empty selection set
and an empty list of nested directives. -/
theorem claim7_directive_nodes_bare (fuel : Nat) (input : Str) (n : Node) (s : Parser)
    (h : parse fuel input = ERes.ok n s) : nodeOK n = true := by
  unfold parse at h
  split at h
  · exact ERes.noConfusion h
  · rename_i p hnp
    unfold ParseQuery at h
    obtain ⟨-, p1, -, h⟩ := bindE_ok h
    obtain ⟨-, p2, -, h⟩ := bindE_ok h
    obtain ⟨dirs, p3, hdirs, h⟩ := bindE_ok h
    obtain ⟨-, p4, -, h⟩ := bindE_ok h
    obtain ⟨sels, p5, hsels, h⟩ := bindE_ok h
    obtain ⟨-, p6, -, h⟩ := bindE_ok h
    injection h with h1 h2
    subst h1
    have hdl : dirs.all dirLeaf = true := List.all_eq_true.mpr
      (fun d hd => ParseDirectiveList_leaf fuel [] p2 dirs p3 hdirs (by simp) d hd)
    have h2 : nodeListOK sels = true := (ParseField_nodeOK fuel).2 [] p4 sels p5 hsels rfl
    show (dirs.all dirLeaf && nodeListOK sels) = true
    simp [hdl, h2]

/-- C7 witness: the invariant on a concretely parsed tree with a query-level
and a field-level directive. -/
theorem claim7_witness :
    nodeOK (Node.mk NodeQuery (chars "A") []
      [Node.mk NodeDirective (chars "p") [] [] []]
      [Node.mk NodeField (chars "f")
        [] [Node.mk NodeDirective (chars "c") [(chars "t", chars "3")] [] []] []]) = true :=
  claim7_directive_nodes_bare 30 (chars "query A @p \x7b f @c(t: \"3\") \x7d")
    (Node.mk NodeQuery (chars "A") []
      [Node.mk NodeDirective (chars "p") [] [] []]
      [Node.mk NodeField (chars "f")
        [] [Node.mk NodeDirective (chars "c") [(chars "t", chars "3")] [] []] []])
    { lexer := { input := chars "query A @p \x7b f @c(t: \"3\") \x7d",
                 position := 28, currentChar := nul },
      curr := { type := TokenEOF, value := [] } }
    rfl

/-- A permutation of a map with at most one entry is that map itself. -/
lemma perm_eq_of_small {m m' : List (Str × Str)} (hp : m'.Perm m) (h : m.length ≤ 1) :
    m' = m := by
  match m, h with
  | [], _ => exact hp.eq_nil
  | [x], _ => exact List.perm_singleton.mp hp
  | x :: y :: rest, h => simp at h

mutual

/-- Rendering is independent of the argument-map enumeration order on trees
whose maps all have at most one entry. -/
theorem printWith_small (sigma : List (Str × Str) → List (Str × Str))
    (hs : ∀ m, (sigma m).Perm m) :
    ∀ (n : Node), argsSmall n = true →
      ∀ ind, PrintWith sigma n ind = PrintWith (fun m => m) n ind
  | .mk t name args dirs sels, hsmall, ind => by
    simp only [argsSmall, Bool.and_eq_true, decide_eq_true_eq, List.all_eq_true] at hsmall
    obtain ⟨⟨hargs, hdirs⟩, hsels⟩ := hsmall
    have e1 : sigma args = args := perm_eq_of_small (hs args) hargs
    simp only [PrintWith]
    rw [e1]
    congr 1
    · congr 1
      refine congrArg List.flatten (List.map_congr_left ?_)
      intro d hd
      rw [perm_eq_of_small (hs d.Arguments) (by simpa using hdirs d hd)]
    · exact printList_small sigma hs sels hsels _

/-- The children loop of the renderer under the same hypothesis. -/
theorem printList_small (sigma : List (Str × Str) → List (Str × Str))
    (hs : ∀ m, (sigma m).Perm m) :
    ∀ (cs : List Node), argsSmallList cs = true →
      ∀ ind, PrintList sigma cs ind = PrintList (fun m => m) cs ind
  | [], _, _ => rfl
  | c :: cs, hsmall, ind => by
    simp only [argsSmallList, Bool.and_eq_true] at hsmall
    obtain ⟨hc, hcs⟩ := hsmall
    simp only [PrintList]
    rw [printWith_small sigma hs c hc ind, printList_small sigma hs cs hcs ind]

end

/-- C5 amended: parse is a function of the input alone, and rendering the
resulting tree is deterministic whenever every arguments map in the tree has
at most one entry: any enumeration order sigma of the Go maps yields the
same string as the insertion order, so two runs agree.  (With a
multi-entry map the order can differ between runs and so can the output -
see the counterexample.) -/
theorem claim5_parse_render_deterministic
    (sigma : List (Str × Str) → List (Str × Str))
    (hs : ∀ m, (sigma m).Perm m) (fuel : Nat) (input : Str) (n : Node) (s : Parser)
    (hp : parse fuel input = ERes.ok n s) (hsmall : argsSmall n = true) :
    PrintWith sigma n [] = render n := by
  unfold render
  exact printWith_small sigma hs n hsmall []

/-- C5 witness: the example input's tree rendered under the reversed
enumeration order equals its canonical rendering. -/
theorem claim5_witness :
    PrintWith List.reverse
      (Node.mk NodeQuery (chars "GetUser") [] []
        [Node.mk NodeField (chars "user") [(chars "id", chars "123")] []
          [Node.mk NodeField (chars "name") [] [] []]]) [] =
    render
      (Node.mk NodeQuery (chars "GetUser") [] []
        [Node.mk NodeField (chars "user") [(chars "id", chars "123")] []
          [Node.mk NodeField (chars "name") [] [] []]]) :=
  claim5_parse_render_deterministic List.reverse (fun m => List.reverse_perm m) 30
    (chars "query GetUser \x7b user(id: \"123\") \x7b name \x7d \x7d")
    (Node.mk NodeQuery (chars "GetUser") [] []
      [Node.mk NodeField (chars "user") [(chars "id", chars "123")] []
        [Node.mk NodeField (chars "name") [] [] []]])
    { lexer := { input := chars "query GetUser \x7b user(id: \"123\") \x7b name \x7d \x7d",
                 position := 43, currentChar := nul },
      curr := { type := TokenEOF, value := [] } }
    rfl (by decide)

/-- A successful eat consumed a token of exactly the expected kind. -/
lemma eat_ok_type {k : TokenType} {p q : Parser} {a : Unit}
    (h : eat k p = ERes.ok a q) : p.curr.type = k := by
  unfold eat at h
  by_cases hk : p.curr.type = k
  · exact hk
  · rw [if_neg hk] at h
    exact ERes.noConfusion h

/-- Eating from a degraded state fetches the EndOfInput lookahead and stays
degraded. -/
lemma eat_degraded {k : TokenType} {p q : Parser} {a : Unit} (hd : Degraded p)
    (h : eat k p = ERes.ok a q) : Degraded q ∧ q.curr.type = TokenEOF := by
  obtain ⟨hpos, hnul, hwf⟩ := hd
  unfold eat at h
  rw [if_pos (eat_ok_type h), nextToken_eof_past p.lexer hwf hpos] at h
  injection h with h1 h2
  rw [← h2]
  exact ⟨⟨hpos, hnul, hwf⟩, rfl⟩

/-- The field argument block started in a degraded state: if it returns ok,
the state stays degraded. -/
lemma ParseFieldArgs_degraded {p q : Parser} {a : List (Str × Str)} (hd : Degraded p)
    (h : ParseFieldArgs p = ERes.ok a q) : Degraded q := by
  unfold ParseFieldArgs at h
  split at h
  · obtain ⟨u1, p1, h1, hr1⟩ := bindE_ok h
    obtain ⟨u2, p2, h2, hr2⟩ := bindE_ok hr1
    obtain ⟨hd1, he1⟩ := eat_degraded hd h1
    have hcontra := eat_ok_type h2
    rw [he1] at hcontra
    exact TokenType.noConfusion hcontra
  · injection h with h1 h2
    rw [← h2]
    exact hd

/-- The directive argument loop started in a degraded state: if it returns
ok, the state stays degraded. -/
lemma ParseDirectiveArgs_degraded : ∀ (fuel : Nat) {args : List (Str × Str)}
    {p q : Parser} {a : List (Str × Str)}, Degraded p →
    ParseDirectiveArgs fuel args p = ERes.ok a q → Degraded q := by
  intro fuel
  induction fuel with
  | zero =>
    intro args p q a hd h
    simp [ParseDirectiveArgs] at h
  | succ fuel ih =>
    intro args p q a hd h
    unfold ParseDirectiveArgs at h
    split at h
    · obtain ⟨u1, p1, h1, hr1⟩ := bindE_ok h
      obtain ⟨u2, p2, h2, hr2⟩ := bindE_ok hr1
      obtain ⟨hd1, he1⟩ := eat_degraded hd h1
      have hcontra := eat_ok_type h2
      rw [he1] at hcontra
      exact TokenType.noConfusion hcontra
    · injection h with h1 h2
      rw [← h2]
      exact hd

/-- ParseDirective started in a degraded state: if it returns ok, the state
stays degraded. -/
lemma ParseDirective_degraded {fuel : Nat} {p q : Parser} {d : Node} (hd : Degraded p)
    (h : ParseDirective fuel p = ERes.ok d q) : Degraded q := by
  unfold ParseDirective at h
  obtain ⟨u1, p1, h1, hr1⟩ := bindE_ok h
  obtain ⟨hd1, he1⟩ := eat_degraded hd h1
  obtain ⟨u2, p2, h2, hr2⟩ := bindE_ok hr1
  have hcontra := eat_ok_type h2
  rw [he1] at hcontra
  exact TokenType.noConfusion hcontra

/-- The directive loop started in a degraded state: if it returns ok, the
state stays degraded. -/
lemma ParseDirectiveList_degraded : ∀ (fuel : Nat) {ds : List Node} {p q : Parser}
    {r : List Node}, Degraded p →
    ParseDirectiveList fuel ds p = ERes.ok r q → Degraded q := by
  intro fuel
  induction fuel with
  | zero =>
    intro ds p q r hd h
    simp [ParseDirectiveList] at h
  | succ fuel ih =>
    intro ds p q r hd h
    unfold ParseDirectiveList at h
    split at h
    · obtain ⟨d, p1, h1, hr1⟩ := bindE_ok h
      exact ih (ParseDirective_degraded hd h1) hr1
    · injection h with h1 h2
      rw [← h2]
      exact hd

/-- ParseField and the field-list loop started in a degraded state: if they
return ok, the state stays degraded. -/
lemma ParseField_degraded : ∀ (fuel : Nat),
    (∀ {p q : Parser} {n : Node}, Degraded p →
      ParseField fuel p = ERes.ok n q → Degraded q) ∧
    (∀ {fs : List Node} {p q : Parser} {r : List Node}, Degraded p →
      ParseFieldList fuel fs p = ERes.ok r q → Degraded q) := by
  intro fuel
  induction fuel with
  | zero =>
    constructor
    · intro p q n hd h
      simp [ParseField] at h
    · intro fs p q r hd h
      simp [ParseFieldList] at h
  | succ fuel ih =>
    obtain ⟨ihF, ihL⟩ := ih
    constructor
    · intro p q n hd h
      unfold ParseField at h
      obtain ⟨u1, p1, h1, hr1⟩ := bindE_ok h
      obtain ⟨args, p2, h2, hr2⟩ := bindE_ok hr1
      obtain ⟨dirs, p3, h3, hr3⟩ := bindE_ok hr2
      obtain ⟨hd1, he1⟩ := eat_degraded hd h1
      have hd2 : Degraded p2 := ParseFieldArgs_degraded hd1 h2
      have hd3 : Degraded p3 := ParseDirectiveList_degraded fuel hd2 h3
      split at hr3
      · obtain ⟨u4, p4, h4, hr4⟩ := bindE_ok hr3
        obtain ⟨sels, p5, h5, hr5⟩ := bindE_ok hr4
        obtain ⟨u6, p6, h6, hr6⟩ := bindE_ok hr5
        obtain ⟨hd4, -⟩ := eat_degraded hd3 h4
        have hd5 : Degraded p5 := ihL hd4 h5
        obtain ⟨hd6, -⟩ := eat_degraded hd5 h6
        injection hr6 with hx1 hx2
        rw [← hx2]
        exact hd6
      · injection hr3 with hx1 hx2
        rw [← hx2]
        exact hd3
    · intro fs p q r hd h
      unfold ParseFieldList at h
      split at h
      · obtain ⟨f, p1, h1, hr1⟩ := bindE_ok h
        exact ihL (ihF hd h1) hr1
      · injection h with h1 h2
        rw [← h2]
        exact hd

/-- The directive loop does nothing when the lookahead is not an at sign. -/
lemma ParseDirectiveList_skip {fuel : Nat} {ds : List Node} {p q : Parser} {r : List Node}
    (h : ParseDirectiveList fuel ds p = ERes.ok r q) (hne : p.curr.type ≠ TokenAt) :
    r = ds ∧ q = p := by
  match fuel with
  | 0 => simp [ParseDirectiveList] at h
  | f + 1 =>
    unfold ParseDirectiveList at h
    rw [if_neg hne] at h
    injection h with h1 h2
    exact ⟨h1.symm, h2.symm⟩

/-- The field-list loop does nothing when the lookahead is not an
identifier. -/
lemma ParseFieldList_skip {fuel : Nat} {fs : List Node} {p q : Parser} {r : List Node}
    (h : ParseFieldList fuel fs p = ERes.ok r q) (hne : p.curr.type ≠ TokenIdent) :
    r = fs ∧ q = p := by
  match fuel with
  | 0 => simp [ParseFieldList] at h
  | f + 1 =>
    unfold ParseFieldList at h
    rw [if_neg hne] at h
    injection h with h1 h2
    exact ⟨h1.symm, h2.symm⟩

/-- One readChar keeps synced states synced, or crosses the boundary into
the past-the-end configuration. -/
lemma readChar_sync {t : Str} {l l' : Lexer} (h : LexSync t l l') :
    LexSync t (readChar l) (readChar l') ∨ LexPast t (readChar l) (readChar l') := by
  obtain ⟨hi, hp, hc, hb, hwl, hwl'⟩ := h
  have hlen' : l'.input.length = l.input.length + t.length := by
    rw [hi]
    simp
  by_cases hlt : l.position < l.input.length
  · left
    refine ⟨?_, ?_, ?_, ?_, ?_, ?_⟩
    · simp [readChar, hi]
    · simp [readChar, hp]
    · show (l'.input).getD l'.position nul = (l.input).getD l.position nul
      rw [hi, hp]
      exact List.getD_append _ _ _ _ hlt
    · simp only [readChar]
      omega
    · exact readChar_wf l (by omega)
    · exact readChar_wf l' (by omega)
  · have hpe : l.position = l.input.length := by
      omega
    right
    refine ⟨?_, ?_, ?_, ?_, ?_⟩
    · simp [readChar, hi]
    · simp [readChar, hp]
    · simp only [readChar]
      omega
    · show (l.input).getD l.position nul = nul
      rw [hpe]
      exact List.getD_eq_default _ _ (Nat.le_refl _)
    · exact readChar_wf l' (by omega)

/-- The whitespace skip in simulation: either both runs exit in sync, or
the original run crossed the end of its input (and its result state is past
the end). -/
lemma skipSpaces_sync : ∀ (fuel fuel' : Nat) (t : Str) (l l' m : Lexer),
    LexSync t l l' → skipSpaces fuel l = some m →
    l'.input.length + 2 ≤ fuel' + l'.position →
    (∃ m', skipSpaces fuel' l' = some m' ∧ LexSync t m m') ∨ OrigPast m := by
  intro fuel
  induction fuel with
  | zero =>
    intro fuel' t l l' m hsync h hf
    simp [skipSpaces] at h
  | succ fuel ih =>
    intro fuel' t l l' m hsync h hf
    have hcc : l'.currentChar = l.currentChar := hsync.2.2.1
    have hwl' : Wf l' := hsync.2.2.2.2.2
    obtain ⟨g, rfl⟩ : ∃ g, fuel' = g + 1 := by
      obtain ⟨w1, w2, w3⟩ := hwl'
      exact ⟨fuel' - 1, by omega⟩
    by_cases hsp : goIsSpace l.currentChar = true
    · unfold skipSpaces at h
      rw [if_pos hsp] at h
      rcases readChar_sync hsync with hshift | hpast
      · rcases ih g t (readChar l) (readChar l') m hshift h
            (by simp only [readChar]; omega) with ⟨m', hm', hs⟩ | hop
        · left
          refine ⟨m', ?_, hs⟩
          unfold skipSpaces
          rw [if_pos (by rw [hcc]; exact hsp)]
          exact hm'
        · right
          exact hop
      · obtain ⟨hi2, hp2, hpe2, hnul2, hwf2'⟩ := hpast
        right
        rcases fuel with - | g2
        · simp [skipSpaces] at h
        · unfold skipSpaces at h
          rw [if_neg (by rw [hnul2]; decide)] at h
          injection h with h1
          rw [← h1]
          simp only [readChar] at hpe2
          exact ⟨by simp only [readChar]; omega, hnul2, readChar_wf l (by omega)⟩
    · unfold skipSpaces at h
      rw [if_neg hsp] at h
      injection h with h1
      left
      refine ⟨l', ?_, ?_⟩
      · unfold skipSpaces
        rw [if_neg (by rw [hcc]; exact hsp)]
      · rw [← h1]
        exact hsync

/-- The string loop in simulation: both runs walk the same characters and
exit on the same closing quote (the original cannot cross the end, or it
would not have returned at all). -/
lemma scanStringEnd_sync : ∀ (fuel fuel' : Nat) (t : Str) (l l' m : Lexer),
    LexSync t l l' → scanStringEnd fuel l = some m → fuel ≤ fuel' →
    ∃ m', scanStringEnd fuel' l' = some m' ∧ LexSync t m m' := by
  intro fuel
  induction fuel with
  | zero =>
    intro fuel' t l l' m hsync h hf
    simp [scanStringEnd] at h
  | succ fuel ih =>
    intro fuel' t l l' m hsync h hf
    have hcc : l'.currentChar = l.currentChar := hsync.2.2.1
    obtain ⟨g, rfl⟩ : ∃ g, fuel' = g + 1 := ⟨fuel' - 1, by omega⟩
    by_cases hq : l.currentChar = '"'
    · unfold scanStringEnd at h
      rw [if_pos hq] at h
      injection h with h1
      refine ⟨l', ?_, ?_⟩
      · unfold scanStringEnd
        rw [if_pos (by rw [hcc]; exact hq)]
      · rw [← h1]
        exact hsync
    · unfold scanStringEnd at h
      rw [if_neg hq] at h
      rcases readChar_sync hsync with hshift | hpast
      · obtain ⟨m', hm', hs⟩ := ih g t (readChar l) (readChar l') m hshift h (by omega)
        refine ⟨m', ?_, hs⟩
        unfold scanStringEnd
        rw [if_neg (by rw [hcc]; exact hq)]
        exact hm'
      · obtain ⟨hi2, hp2, hpe2, hnul2, hwf2'⟩ := hpast
        rw [scanStringEnd_none fuel (readChar l) (by rw [hnul2]; decide)
            (by rw [List.drop_eq_nil_of_le (by omega)]; simp)] at h
        exact Option.noConfusion h

/-- The identifier loop in simulation: either both runs exit in sync, or
the original crossed the end of its input. -/
lemma scanIdentEnd_sync : ∀ (fuel fuel' : Nat) (t : Str) (l l' m : Lexer),
    LexSync t l l' → scanIdentEnd fuel l = some m → fuel ≤ fuel' →
    (∃ m', scanIdentEnd fuel' l' = some m' ∧ LexSync t m m') ∨ OrigPast m := by
  intro fuel
  induction fuel with
  | zero =>
    intro fuel' t l l' m hsync h hf
    simp [scanIdentEnd] at h
  | succ fuel ih =>
    intro fuel' t l l' m hsync h hf
    have hcc : l'.currentChar = l.currentChar := hsync.2.2.1
    obtain ⟨g, rfl⟩ : ∃ g, fuel' = g + 1 := ⟨fuel' - 1, by omega⟩
    by_cases hld : (isLetter l.currentChar || isDigit l.currentChar) = true
    · unfold scanIdentEnd at h
      rw [if_pos hld] at h
      rcases readChar_sync hsync with hshift | hpast
      · rcases ih g t (readChar l) (readChar l') m hshift h (by omega) with ⟨m', hm', hs⟩ | hop
        · left
          refine ⟨m', ?_, hs⟩
          unfold scanIdentEnd
          rw [if_pos (by rw [hcc]; exact hld)]
          exact hm'
        · right
          exact hop
      · obtain ⟨hi2, hp2, hpe2, hnul2, hwf2'⟩ := hpast
        right
        rcases fuel with - | g2
        · simp [scanIdentEnd] at h
        · unfold scanIdentEnd at h
          rw [if_neg (by rw [hnul2]; decide)] at h
          injection h with h1
          rw [← h1]
          simp only [readChar] at hpe2
          exact ⟨by simp only [readChar]; omega, hnul2, readChar_wf l (by omega)⟩
    · unfold scanIdentEnd at h
      rw [if_neg hld] at h
      injection h with h1
      left
      refine ⟨l', ?_, ?_⟩
      · unfold scanIdentEnd
        rw [if_neg (by rw [hcc]; exact hld)]
      · rw [← h1]
        exact hsync

/-- Slicing inside the original input ignores the appended text. -/
lemma slice_append (a t : Str) (i j : Nat) (h : j ≤ a.length) :
    slice (a ++ t) i j = slice a i j := by
  unfold slice
  rw [List.take_append_of_le_length h]

/-- The string loop never changes the input. -/
lemma scanStringEnd_input : ∀ (fuel : Nat) (l m : Lexer),
    scanStringEnd fuel l = some m → m.input = l.input := by
  intro fuel
  induction fuel with
  | zero =>
    intro l m h
    simp [scanStringEnd] at h
  | succ fuel ih =>
    intro l m h
    unfold scanStringEnd at h
    split at h
    · injection h with h1
      rw [← h1]
    · exact ih (readChar l) m h

/-- The identifier loop never changes the input. -/
lemma scanIdentEnd_input : ∀ (fuel : Nat) (l m : Lexer),
    scanIdentEnd fuel l = some m → m.input = l.input := by
  intro fuel
  induction fuel with
  | zero =>
    intro l m h
    simp [scanIdentEnd] at h
  | succ fuel ih =>
    intro l m h
    unfold scanIdentEnd at h
    split at h
    · exact ih (readChar l) m h
    · injection h with h1
      rw [← h1]

/-- NextToken in simulation: on synced lexer states, the extended run either
produces the very same token with related result states, or the original
scan ran past the end of its input (and the original result state is past
the end, so every token the original fetches from then on is EndOfInput). -/
lemma NextToken_sync {t : Str} {l l' : Lexer} (hsync : LexSync t l l')
    {tok : Token} {l2 : Lexer} (h : NextToken l = some (tok, l2)) :
    (∃ l2', NextToken l' = some (tok, l2') ∧ (LexSync t l2 l2' ∨ LexPast t l2 l2')) ∨
    (OrigPast l2 ∧ (tok.type = TokenEOF ∨ tok.type = TokenIdent)) := by
  have hin : l'.input = l.input ++ t := hsync.1
  have hWl' : Wf l' := hsync.2.2.2.2.2
  have hfle : lexFuel l ≤ lexFuel l' := by
    unfold lexFuel
    rw [hin]
    simp
  unfold NextToken at h
  cases hskip : skipSpaces (lexFuel l) l with
  | none =>
    rw [hskip] at h
    exact Option.noConfusion h
  | some m =>
    rw [hskip] at h
    replace h : NextTokenBody (lexFuel l) m = some (tok, l2) := h
    rcases skipSpaces_sync (lexFuel l) (lexFuel l') t l l' m hsync hskip
        (by unfold lexFuel; obtain ⟨a, b, c⟩ := hWl'; omega) with ⟨m', hskip', hms⟩ | hop
    · have hcc : m'.currentChar = m.currentChar := hms.2.2.1
      have hmin : m'.input = m.input ++ t := hms.1
      have hmpos : m'.position = m.position := hms.2.1
      have hNT' : NextToken l' = NextTokenBody (lexFuel l') m' := by
        unfold NextToken
        rw [hskip']
      unfold NextTokenBody at h
      by_cases c1 : m.currentChar = '{'
      · rw [if_pos c1] at h
        injection h with h1
        injection h1 with ht hl
        subst ht
        subst hl
        left
        refine ⟨readChar m', ?_, readChar_sync hms⟩
        rw [hNT']
        unfold NextTokenBody
        rw [if_pos (by rw [hcc]; exact c1)]
      rw [if_neg c1] at h
      by_cases c2 : m.currentChar = '}'
      · rw [if_pos c2] at h
        injection h with h1
        injection h1 with ht hl
        subst ht
        subst hl
        left
        refine ⟨readChar m', ?_, readChar_sync hms⟩
        rw [hNT']
        unfold NextTokenBody
        rw [if_neg (by rw [hcc]; exact c1), if_pos (by rw [hcc]; exact c2)]
      rw [if_neg c2] at h
      by_cases c3 : m.currentChar = '('
      · rw [if_pos c3] at h
        injection h with h1
        injection h1 with ht hl
        subst ht
        subst hl
        left
        refine ⟨readChar m', ?_, readChar_sync hms⟩
        rw [hNT']
        unfold NextTokenBody
        rw [if_neg (by rw [hcc]; exact c1), if_neg (by rw [hcc]; exact c2),
            if_pos (by rw [hcc]; exact c3)]
      rw [if_neg c3] at h
      by_cases c4 : m.currentChar = ')'
      · rw [if_pos c4] at h
        injection h with h1
        injection h1 with ht hl
        subst ht
        subst hl
        left
        refine ⟨readChar m', ?_, readChar_sync hms⟩
        rw [hNT']
        unfold NextTokenBody
        rw [if_neg (by rw [hcc]; exact c1), if_neg (by rw [hcc]; exact c2),
            if_neg (by rw [hcc]; exact c3), if_pos (by rw [hcc]; exact c4)]
      rw [if_neg c4] at h
      by_cases c5 : m.currentChar = ':'
      · rw [if_pos c5] at h
        injection h with h1
        injection h1 with ht hl
        subst ht
        subst hl
        left
        refine ⟨readChar m', ?_, readChar_sync hms⟩
        rw [hNT']
        unfold NextTokenBody
        rw [if_neg (by rw [hcc]; exact c1), if_neg (by rw [hcc]; exact c2),
            if_neg (by rw [hcc]; exact c3), if_neg (by rw [hcc]; exact c4),
            if_pos (by rw [hcc]; exact c5)]
      rw [if_neg c5] at h
      by_cases c6 : m.currentChar = '@'
      · rw [if_pos c6] at h
        injection h with h1
        injection h1 with ht hl
        subst ht
        subst hl
        left
        refine ⟨readChar m', ?_, readChar_sync hms⟩
        rw [hNT']
        unfold NextTokenBody
        rw [if_neg (by rw [hcc]; exact c1), if_neg (by rw [hcc]; exact c2),
            if_neg (by rw [hcc]; exact c3), if_neg (by rw [hcc]; exact c4),
            if_neg (by rw [hcc]; exact c5), if_pos (by rw [hcc]; exact c6)]
      rw [if_neg c6] at h
      by_cases c7 : m.currentChar = '"'
      · rw [if_pos c7] at h
        cases hscan : scanStringEnd (lexFuel l) (readChar m) with
        | none =>
          simp only [hscan] at h
          exact Option.noConfusion h
        | some m3 =>
          simp only [hscan] at h
          injection h with h1
          injection h1 with ht hl
          rcases readChar_sync hms with hrs | hrp
          · obtain ⟨m3', hscan', hm3s⟩ :=
              scanStringEnd_sync (lexFuel l) (lexFuel l') t (readChar m) (readChar m') m3
                hrs hscan hfle
            have hm3in : m3.input = m.input := scanStringEnd_input (lexFuel l) (readChar m) m3 hscan
            have hm3b : m3.position ≤ m.input.length := by
              have hb := hm3s.2.2.2.1
              rw [hm3in] at hb
              exact hb
            have hval : slice m'.input ((readChar m').position - 1) m3'.position =
                slice m.input ((readChar m).position - 1) m3.position := by
              rw [hmin, hm3s.2.1]
              have hpp : (readChar m').position = (readChar m).position := by
                simp only [readChar]
                omega
              rw [hpp]
              exact slice_append _ _ _ _ hm3b
            left
            refine ⟨readChar m3', ?_, ?_⟩
            · rw [hNT']
              unfold NextTokenBody
              rw [if_neg (by rw [hcc]; exact c1), if_neg (by rw [hcc]; exact c2),
                  if_neg (by rw [hcc]; exact c3), if_neg (by rw [hcc]; exact c4),
                  if_neg (by rw [hcc]; exact c5), if_neg (by rw [hcc]; exact c6),
                  if_pos (by rw [hcc]; exact c7)]
              simp only [hscan']
              rw [hval, ht]
            · rw [← hl]
              exact readChar_sync hm3s
          · obtain ⟨hi2, hp2, hpe2, hnul2, -⟩ := hrp
            rw [scanStringEnd_none (lexFuel l) (readChar m) (by rw [hnul2]; decide)
                (by rw [List.drop_eq_nil_of_le (by omega)]; simp)] at hscan
            exact Option.noConfusion hscan
      rw [if_neg c7] at h
      by_cases c8 : m.currentChar = nul
      · rw [if_pos c8] at h
        injection h with h1
        injection h1 with ht hl
        subst ht
        subst hl
        left
        refine ⟨m', ?_, Or.inl hms⟩
        rw [hNT']
        unfold NextTokenBody
        rw [if_neg (by rw [hcc]; exact c1), if_neg (by rw [hcc]; exact c2),
            if_neg (by rw [hcc]; exact c3), if_neg (by rw [hcc]; exact c4),
            if_neg (by rw [hcc]; exact c5), if_neg (by rw [hcc]; exact c6),
            if_neg (by rw [hcc]; exact c7), if_pos (by rw [hcc]; exact c8)]
      rw [if_neg c8] at h
      by_cases c9 : isLetter m.currentChar = true
      · rw [if_pos c9] at h
        cases hscan : scanIdentEnd (lexFuel l) m with
        | none =>
          simp only [hscan] at h
          exact Option.noConfusion h
        | some m3 =>
          simp only [hscan] at h
          injection h with h1
          injection h1 with ht hl
          rcases scanIdentEnd_sync (lexFuel l) (lexFuel l') t m m' m3 hms hscan hfle
              with ⟨m3', hscan', hm3s⟩ | hop3
          · have hm3in : m3.input = m.input := scanIdentEnd_input (lexFuel l) m m3 hscan
            have hm3b : m3.position ≤ m.input.length := by
              have hb := hm3s.2.2.2.1
              rw [hm3in] at hb
              exact hb
            have hval : slice m'.input (m'.position - 1) (m3'.position - 1) =
                slice m.input (m.position - 1) (m3.position - 1) := by
              rw [hmin, hm3s.2.1, hmpos]
              exact slice_append _ _ _ _ (by omega)
            left
            refine ⟨m3', ?_, ?_⟩
            · rw [hNT']
              unfold NextTokenBody
              rw [if_neg (by rw [hcc]; exact c1), if_neg (by rw [hcc]; exact c2),
                  if_neg (by rw [hcc]; exact c3), if_neg (by rw [hcc]; exact c4),
                  if_neg (by rw [hcc]; exact c5), if_neg (by rw [hcc]; exact c6),
                  if_neg (by rw [hcc]; exact c7), if_neg (by rw [hcc]; exact c8),
                  if_pos (by rw [hcc]; exact c9)]
              simp only [hscan']
              rw [hval, ht]
            · rw [← hl]
              exact Or.inl hm3s
          · right
            refine ⟨?_, Or.inr (by rw [← ht])⟩
            rw [← hl]
            exact hop3
      · rw [if_neg c9] at h
        injection h with h1
        injection h1 with ht hl
        subst ht
        subst hl
        left
        refine ⟨m', ?_, Or.inl hms⟩
        rw [hNT']
        unfold NextTokenBody
        rw [if_neg (by rw [hcc]; exact c1), if_neg (by rw [hcc]; exact c2),
            if_neg (by rw [hcc]; exact c3), if_neg (by rw [hcc]; exact c4),
            if_neg (by rw [hcc]; exact c5), if_neg (by rw [hcc]; exact c6),
            if_neg (by rw [hcc]; exact c7), if_neg (by rw [hcc]; exact c8),
            if_neg (by rw [hcc]; exact c9)]
    · obtain ⟨hposm, hnulm, hwfm⟩ := hop
      unfold NextTokenBody at h
      rw [if_neg (by rw [hnulm]; decide), if_neg (by rw [hnulm]; decide),
          if_neg (by rw [hnulm]; decide), if_neg (by rw [hnulm]; decide),
          if_neg (by rw [hnulm]; decide), if_neg (by rw [hnulm]; decide),
          if_neg (by rw [hnulm]; decide), if_pos hnulm] at h
      injection h with h1
      injection h1 with ht hl
      right
      refine ⟨?_, Or.inl (by rw [← ht])⟩
      rw [← hl]
      exact ⟨hposm, hnulm, hwfm⟩

/-- Sequencing after a successful step is the continuation. -/
lemma bindE_ok_eq {α β : Type} (a : α) (p : Parser) (f : α → Parser → ERes β) :
    bindE (ERes.ok a p) f = f a p := rfl

/-- eat on a matching lookahead whose refill scan returns. -/
lemma eat_of_next_some {k : TokenType} {p : Parser} {tok : Token} {lx : Lexer}
    (hk : p.curr.type = k) (hnt : NextToken p.lexer = some (tok, lx)) :
    eat k p = ERes.ok () { lexer := lx, curr := tok } := by
  unfold eat
  rw [if_pos hk, hnt]

/-- eat on a matching lookahead whose refill scan never returns. -/
lemma eat_of_next_none {k : TokenType} {p : Parser}
    (hk : p.curr.type = k) (hnt : NextToken p.lexer = none) :
    eat k p = ERes.diverge := by
  unfold eat
  rw [if_pos hk, hnt]

/-- The field argument block cannot start in a degraded state whose
lookahead is EndOfInput or an identifier and see an opening paren; it
returns its input unchanged. -/
lemma ParseFieldArgs_degradedE {p q : Parser} {a : List (Str × Str)} (hd : DegradedE p)
    (h : ParseFieldArgs p = ERes.ok a q) : DegradedE q := by
  unfold ParseFieldArgs at h
  split at h
  · rename_i hc
    rcases hd.2 with hk | hk <;> rw [hc] at hk <;> exact TokenType.noConfusion hk
  · injection h with h1 h2
    rw [← h2]
    exact hd

/-- The directive argument loop from a degraded state with EndOfInput or
identifier lookahead: it can only exit at once (an entered iteration would
need a colon after the flushed identifier, but only EndOfInput is left). -/
lemma ParseDirectiveArgs_degradedE : ∀ (fuel : Nat) {args : List (Str × Str)}
    {p q : Parser} {a : List (Str × Str)}, DegradedE p →
    ParseDirectiveArgs fuel args p = ERes.ok a q → DegradedE q := by
  intro fuel args p q a hd h
  match fuel with
  | 0 => simp [ParseDirectiveArgs] at h
  | f + 1 =>
    unfold ParseDirectiveArgs at h
    split at h
    · obtain ⟨u1, p1, h1, hr1⟩ := bindE_ok h
      obtain ⟨u2, p2, h2, hr2⟩ := bindE_ok hr1
      obtain ⟨hd1, he1⟩ := eat_degraded hd.1 h1
      have hcontra := eat_ok_type h2
      rw [he1] at hcontra
      exact TokenType.noConfusion hcontra
    · injection h with h1 h2
      rw [← h2]
      exact hd

/-- The directive loop from a degraded state with EndOfInput or identifier
lookahead exits at once (the lookahead is not an at sign). -/
lemma ParseDirectiveList_degradedE {fuel : Nat} {ds : List Node} {p q : Parser}
    {r : List Node} (hd : DegradedE p)
    (h : ParseDirectiveList fuel ds p = ERes.ok r q) : DegradedE q := by
  have hne : p.curr.type ≠ TokenAt := by
    rcases hd.2 with hk | hk <;> rw [hk] <;> decide
  obtain ⟨-, h2⟩ := ParseDirectiveList_skip h hne
  rw [h2]
  exact hd

/-- ParseField and the field-list loop from a degraded state with
EndOfInput or identifier lookahead stay degraded with such a lookahead. -/
lemma ParseField_degradedE : ∀ (fuel : Nat),
    (∀ {p q : Parser} {n : Node}, DegradedE p →
      ParseField fuel p = ERes.ok n q → DegradedE q) ∧
    (∀ {fs : List Node} {p q : Parser} {r : List Node}, DegradedE p →
      ParseFieldList fuel fs p = ERes.ok r q → DegradedE q) := by
  intro fuel
  induction fuel with
  | zero =>
    constructor
    · intro p q n hd h
      simp [ParseField] at h
    · intro fs p q r hd h
      simp [ParseFieldList] at h
  | succ fuel ih =>
    obtain ⟨ihF, ihL⟩ := ih
    constructor
    · intro p q n hd h
      unfold ParseField at h
      obtain ⟨u1, p1, h1, hr1⟩ := bindE_ok h
      obtain ⟨args, p2, h2, hr2⟩ := bindE_ok hr1
      obtain ⟨dirs, p3, h3, hr3⟩ := bindE_ok hr2
      obtain ⟨hd1, he1⟩ := eat_degraded hd.1 h1
      have hde2 : DegradedE p2 := ParseFieldArgs_degradedE ⟨hd1, Or.inl he1⟩ h2
      have hde3 : DegradedE p3 := ParseDirectiveList_degradedE hde2 h3
      split at hr3
      · rename_i hc
        rcases hde3.2 with hk | hk <;> rw [hc] at hk <;> exact TokenType.noConfusion hk
      · injection hr3 with hx1 hx2
        rw [← hx2]
        exact hde3
    · intro fs p q r hd h
      unfold ParseFieldList at h
      split at h
      · obtain ⟨f, p1, h1, hr1⟩ := bindE_ok h
        exact ihL (ihF hd h1) hr1
      · injection h with h1 h2
        rw [← h2]
        exact hd

/-- One eat in simulation: the extended run eats the same token and stays
in step, or the original lexer ran past its end while refilling and the
lookahead it fetched is EndOfInput or a flushed identifier. -/
lemma eat_sync {t : Str} {k : TokenType} {p p' : Parser} (hp : PSync t p p')
    {a : Unit} {q : Parser} (h : eat k p = ERes.ok a q) :
    (∃ q', eat k p' = ERes.ok a q' ∧ PSync t q q') ∨ DegradedE q := by
  cases a
  obtain ⟨hcurr, hlex⟩ := hp
  have hk : p.curr.type = k := eat_ok_type h
  unfold eat at h
  rw [if_pos hk] at h
  cases hnt : NextToken p.lexer with
  | none =>
    rw [hnt] at h
    exact ERes.noConfusion h
  | some r =>
    obtain ⟨tk, lx⟩ := r
    rw [hnt] at h
    injection h with h1 h2
    rcases hlex with hsyncl | hpastl
    · rcases NextToken_sync hsyncl hnt with ⟨lx', hnt', hrel⟩ | ⟨hpl, hkind⟩
      · left
        refine ⟨{ lexer := lx', curr := tk }, ?_, ?_⟩
        · exact eat_of_next_some (by rw [hcurr]; exact hk) hnt'
        · rw [← h2]
          exact ⟨rfl, hrel⟩
      · right
        rw [← h2]
        exact ⟨hpl, hkind⟩
    · obtain ⟨hi, hpp, hpe, hnul, hw'⟩ := hpastl
      have hwl : Wf p.lexer := by
        refine ⟨by omega, by omega, ?_⟩
        rw [hnul, hpe]
        exact (List.getD_eq_default _ _ (by omega)).symm
      have hnt2 := nextToken_eof_past p.lexer hwl (by omega)
      rw [hnt2] at hnt
      injection hnt with hnt1
      injection hnt1 with ha hb
      right
      rw [← h2, ← hb]
      refine ⟨⟨?_, hnul, hwl⟩, Or.inl ?_⟩
      · show p.lexer.input.length < p.lexer.position
        omega
      · rw [← ha]

/-- The fresh lexer of any input is well formed. -/
lemma NewLexer_wf (input : Str) : Wf (NewLexer input) :=
  readChar_wf { input := input, position := 0, currentChar := nul } (Nat.zero_le _)

/-- The fresh lexers of an input and of the input with trailing text are
synced, or (for the empty input) in the past-the-end relation. -/
lemma NewLexer_rel (input t : Str) :
    LexSync t (NewLexer input) (NewLexer (input ++ t)) ∨
    LexPast t (NewLexer input) (NewLexer (input ++ t)) := by
  cases input with
  | nil =>
    right
    exact ⟨rfl, rfl, rfl, rfl, NewLexer_wf _⟩
  | cons c cs =>
    left
    refine ⟨rfl, rfl, rfl, ?_, NewLexer_wf _, NewLexer_wf _⟩
    show 0 + 1 ≤ (c :: cs).length
    simp

/-- The field argument block in simulation: the extended run produces the
same arguments and stays in step, or the original run degrades. -/
lemma ParseFieldArgs_sync {t : Str} {p p' : Parser} (hp : PSync t p p')
    {a : List (Str × Str)} {q : Parser} (h : ParseFieldArgs p = ERes.ok a q) :
    (∃ q', ParseFieldArgs p' = ERes.ok a q' ∧ PSync t q q') ∨ DegradedE q := by
  have hcurr : p'.curr = p.curr := hp.1
  unfold ParseFieldArgs at h
  split at h
  · rename_i hc
    obtain ⟨u1, p1, h1, hr1⟩ := bindE_ok h
    obtain ⟨u2, p2, h2, hr2⟩ := bindE_ok hr1
    obtain ⟨u3, p3, h3, hr3⟩ := bindE_ok hr2
    obtain ⟨u4, p4, h4, hr4⟩ := bindE_ok hr3
    obtain ⟨u5, p5, h5, hr5⟩ := bindE_ok hr4
    injection hr5 with ha hq5
    rcases eat_sync hp h1 with ⟨q1', he1', hps1⟩ | hd1
    · rcases eat_sync hps1 h2 with ⟨q2', he2', hps2⟩ | hd2
      · rcases eat_sync hps2 h3 with ⟨q3', he3', hps3⟩ | hd3
        · rcases eat_sync hps3 h4 with ⟨q4', he4', hps4⟩ | hd4
          · rcases eat_sync hps4 h5 with ⟨q5', he5', hps5⟩ | hd5
            · left
              refine ⟨q5', ?_, ?_⟩
              · unfold ParseFieldArgs
                rw [if_pos (by rw [hcurr]; exact hc)]
                simp only [he1', he2', he3', he4', he5', bindE_ok_eq]
                rw [hps1.1, hps3.1, ha]
              · rw [← hq5]
                exact hps5
            · right
              rw [← hq5]
              exact hd5
          · have hcontra := eat_ok_type h5
            rcases hd4.2 with hk | hk <;> rw [hk] at hcontra <;>
              exact TokenType.noConfusion hcontra
        · have hcontra := eat_ok_type h4
          rcases hd3.2 with hk | hk <;> rw [hk] at hcontra <;>
            exact TokenType.noConfusion hcontra
      · have hcontra := eat_ok_type h3
        rcases hd2.2 with hk | hk <;> rw [hk] at hcontra <;>
          exact TokenType.noConfusion hcontra
    · obtain ⟨hdp2, he2⟩ := eat_degraded hd1.1 h2
      have hcontra := eat_ok_type h3
      rw [he2] at hcontra
      exact TokenType.noConfusion hcontra
  · rename_i hc
    injection h with h1 h2
    left
    refine ⟨p', ?_, ?_⟩
    · unfold ParseFieldArgs
      rw [if_neg (by rw [hcurr]; exact hc), h1]
    · rw [← h2]
      exact hp

/-- The directive argument loop in simulation: same arguments in step, or
the original run degrades. -/
lemma ParseDirectiveArgs_sync : ∀ (fuel : Nat) (t : Str) (args : List (Str × Str))
    (p p' : Parser), PSync t p p' → ∀ {a : List (Str × Str)} {q : Parser},
    ParseDirectiveArgs fuel args p = ERes.ok a q →
    (∃ q', ParseDirectiveArgs fuel args p' = ERes.ok a q' ∧ PSync t q q') ∨ DegradedE q := by
  intro fuel
  induction fuel with
  | zero =>
    intro t args p p' hp a q h
    simp [ParseDirectiveArgs] at h
  | succ fuel ih =>
    intro t args p p' hp a q h
    have hcurr : p'.curr = p.curr := hp.1
    unfold ParseDirectiveArgs at h
    split at h
    · rename_i hc
      obtain ⟨u1, p1, h1, hr1⟩ := bindE_ok h
      obtain ⟨u2, p2, h2, hr2⟩ := bindE_ok hr1
      obtain ⟨u3, p3, h3, hr3⟩ := bindE_ok hr2
      rcases eat_sync hp h1 with ⟨q1', he1', hps1⟩ | hd1
      · rcases eat_sync hps1 h2 with ⟨q2', he2', hps2⟩ | hd2
        · rcases eat_sync hps2 h3 with ⟨q3', he3', hps3⟩ | hd3
          · rcases ih t _ p3 q3' hps3 hr3 with ⟨q', hrec', hpsq⟩ | hdq
            · left
              refine ⟨q', ?_, hpsq⟩
              unfold ParseDirectiveArgs
              rw [if_pos (by rw [hcurr]; exact hc)]
              simp only [he1', he2', he3', bindE_ok_eq, hcurr, hps2.1]
              exact hrec'
            · right
              exact hdq
          · right
            exact ParseDirectiveArgs_degradedE fuel hd3 hr3
        · have hcontra := eat_ok_type h3
          rcases hd2.2 with hk | hk <;> rw [hk] at hcontra <;>
            exact TokenType.noConfusion hcontra
      · have hcontra := eat_ok_type h2
        rcases hd1.2 with hk | hk <;> rw [hk] at hcontra <;>
          exact TokenType.noConfusion hcontra
    · rename_i hc
      injection h with h1 h2
      left
      refine ⟨p', ?_, ?_⟩
      · unfold ParseDirectiveArgs
        rw [if_neg (by rw [hcurr]; exact hc), h1]
      · rw [← h2]
        exact hp

/-- ParseDirective in simulation: the extended run builds the same node and
stays in step, or the original run degrades with EndOfInput or identifier
lookahead. -/
lemma ParseDirective_sync {fuel : Nat} {t : Str} {p p' : Parser} (hp : PSync t p p')
    {d : Node} {q : Parser} (h : ParseDirective fuel p = ERes.ok d q) :
    (∃ q', ParseDirective fuel p' = ERes.ok d q' ∧ PSync t q q') ∨ DegradedE q := by
  have hcurr : p'.curr = p.curr := hp.1
  unfold ParseDirective at h
  obtain ⟨u1, p1, h1, hr1⟩ := bindE_ok h
  obtain ⟨u2, p2, h2, hr2⟩ := bindE_ok hr1
  rcases eat_sync hp h1 with ⟨q1', he1', hps1⟩ | hd1
  · rcases eat_sync hps1 h2 with ⟨q2', he2', hps2⟩ | hd2
    · split at hr2
      · rename_i hc
        obtain ⟨u3, p3, h3, hr3⟩ := bindE_ok hr2
        obtain ⟨args, p4, h4, hr4⟩ := bindE_ok hr3
        obtain ⟨u5, p5, h5, hr5⟩ := bindE_ok hr4
        injection hr5 with ha hq5
        rcases eat_sync hps2 h3 with ⟨q3', he3', hps3⟩ | hd3
        · rcases ParseDirectiveArgs_sync fuel t [] p3 q3' hps3 h4 with ⟨q4', h4', hps4⟩ | hd4
          · rcases eat_sync hps4 h5 with ⟨q5', he5', hps5⟩ | hd5
            · left
              refine ⟨q5', ?_, ?_⟩
              · unfold ParseDirective
                simp only [he1', he2', bindE_ok_eq]
                rw [hps2.1, if_pos hc]
                simp only [he3', h4', he5', bindE_ok_eq]
                rw [hps1.1, ha]
              · rw [← hq5]
                exact hps5
            · right
              rw [← hq5]
              exact hd5
          · have hcontra := eat_ok_type h5
            rcases hd4.2 with hk | hk <;> rw [hk] at hcontra <;>
              exact TokenType.noConfusion hcontra
        · have hd4 := ParseDirectiveArgs_degradedE fuel hd3 h4
          have hcontra := eat_ok_type h5
          rcases hd4.2 with hk | hk <;> rw [hk] at hcontra <;>
            exact TokenType.noConfusion hcontra
      · rename_i hc
        injection hr2 with ha hq2
        left
        refine ⟨q2', ?_, ?_⟩
        · unfold ParseDirective
          simp only [he1', he2', bindE_ok_eq]
          rw [hps2.1, if_neg hc, hps1.1, ha]
        · rw [← hq2]
          exact hps2
    · split at hr2
      · rename_i hc
        rcases hd2.2 with hk | hk <;> rw [hc] at hk <;> exact TokenType.noConfusion hk
      · rename_i hc
        injection hr2 with ha hq2
        right
        rw [← hq2]
        exact hd2
  · obtain ⟨hdp2, he2⟩ := eat_degraded hd1.1 h2
    split at hr2
    · rename_i hc
      rw [he2] at hc
      exact TokenType.noConfusion hc
    · rename_i hc
      injection hr2 with ha hq2
      right
      rw [← hq2]
      exact ⟨hdp2, Or.inl he2⟩

/-- The directive loop in simulation: same directives in step, or the
original run degrades. -/
lemma ParseDirectiveList_sync : ∀ (fuel : Nat) (t : Str) (ds : List Node)
    (p p' : Parser), PSync t p p' → ∀ {r : List Node} {q : Parser},
    ParseDirectiveList fuel ds p = ERes.ok r q →
    (∃ q', ParseDirectiveList fuel ds p' = ERes.ok r q' ∧ PSync t q q') ∨ DegradedE q := by
  intro fuel
  induction fuel with
  | zero =>
    intro t ds p p' hp r q h
    simp [ParseDirectiveList] at h
  | succ fuel ih =>
    intro t ds p p' hp r q h
    have hcurr : p'.curr = p.curr := hp.1
    unfold ParseDirectiveList at h
    split at h
    · rename_i hc
      obtain ⟨d, p1, h1, hr1⟩ := bindE_ok h
      rcases ParseDirective_sync hp h1 with ⟨q1', h1', hps1⟩ | hd1
      · rcases ih t (ds ++ [d]) p1 q1' hps1 hr1 with ⟨q', hrec', hpsq⟩ | hdq
        · left
          refine ⟨q', ?_, hpsq⟩
          unfold ParseDirectiveList
          rw [if_pos (by rw [hcurr]; exact hc)]
          simp only [h1', bindE_ok_eq]
          exact hrec'
        · right
          exact hdq
      · right
        exact ParseDirectiveList_degradedE hd1 hr1
    · rename_i hc
      injection h with h1 h2
      left
      refine ⟨p', ?_, ?_⟩
      · unfold ParseDirectiveList
        rw [if_neg (by rw [hcurr]; exact hc), h1]
      · rw [← h2]
        exact hp

/-- ParseField and the field-list loop in simulation: same nodes in step,
or the original run degrades. -/
lemma ParseField_sync : ∀ (fuel : Nat) (t : Str),
    (∀ {p p' : Parser}, PSync t p p' → ∀ {n : Node} {q : Parser},
      ParseField fuel p = ERes.ok n q →
      (∃ q', ParseField fuel p' = ERes.ok n q' ∧ PSync t q q') ∨ DegradedE q) ∧
    (∀ (fs : List Node) {p p' : Parser}, PSync t p p' → ∀ {r : List Node} {q : Parser},
      ParseFieldList fuel fs p = ERes.ok r q →
      (∃ q', ParseFieldList fuel fs p' = ERes.ok r q' ∧ PSync t q q') ∨ DegradedE q) := by
  intro fuel t
  induction fuel with
  | zero =>
    constructor
    · intro p p' hp n q h
      simp [ParseField] at h
    · intro fs p p' hp r q h
      simp [ParseFieldList] at h
  | succ fuel ih =>
    obtain ⟨ihF, ihL⟩ := ih
    constructor
    · intro p p' hp n q h
      have hcurr : p'.curr = p.curr := hp.1
      unfold ParseField at h
      obtain ⟨u1, p1, h1, hr1⟩ := bindE_ok h
      obtain ⟨args, p2, h2, hr2⟩ := bindE_ok hr1
      obtain ⟨dirs, p3, h3, hr3⟩ := bindE_ok hr2
      rcases eat_sync hp h1 with ⟨q1', he1', hps1⟩ | hd1
      · rcases ParseFieldArgs_sync hps1 h2 with ⟨q2', h2', hps2⟩ | hd2
        · rcases ParseDirectiveList_sync fuel t [] p2 q2' hps2 h3 with ⟨q3', h3', hps3⟩ | hd3
          · split at hr3
            · rename_i hc
              obtain ⟨u4, p4, h4, hr4⟩ := bindE_ok hr3
              obtain ⟨sels, p5, h5, hr5⟩ := bindE_ok hr4
              obtain ⟨u6, p6, h6, hr6⟩ := bindE_ok hr5
              injection hr6 with ha hq6
              rcases eat_sync hps3 h4 with ⟨q4', he4', hps4⟩ | hd4
              · rcases ihL [] hps4 h5 with ⟨q5', h5', hps5⟩ | hd5
                · rcases eat_sync hps5 h6 with ⟨q6', he6', hps6⟩ | hd6
                  · left
                    refine ⟨q6', ?_, ?_⟩
                    · unfold ParseField
                      simp only [he1', h2', h3', bindE_ok_eq]
                      rw [hps3.1, if_pos hc]
                      simp only [he4', h5', he6', bindE_ok_eq]
                      rw [hcurr, ha]
                    · rw [← hq6]
                      exact hps6
                  · right
                    rw [← hq6]
                    exact hd6
                · have hcontra := eat_ok_type h6
                  rcases hd5.2 with hk | hk <;> rw [hk] at hcontra <;>
                    exact TokenType.noConfusion hcontra
              · have hd5 := (ParseField_degradedE fuel).2 hd4 h5
                have hcontra := eat_ok_type h6
                rcases hd5.2 with hk | hk <;> rw [hk] at hcontra <;>
                  exact TokenType.noConfusion hcontra
            · rename_i hc
              injection hr3 with ha hq3
              left
              refine ⟨q3', ?_, ?_⟩
              · unfold ParseField
                simp only [he1', h2', h3', bindE_ok_eq]
                rw [hps3.1, if_neg hc, hcurr, ha]
              · rw [← hq3]
                exact hps3
          · split at hr3
            · rename_i hc
              rcases hd3.2 with hk | hk <;> rw [hc] at hk <;>
                exact TokenType.noConfusion hk
            · rename_i hc
              injection hr3 with ha hq3
              right
              rw [← hq3]
              exact hd3
        · have hd3 := ParseDirectiveList_degradedE hd2 h3
          split at hr3
          · rename_i hc
            rcases hd3.2 with hk | hk <;> rw [hc] at hk <;>
              exact TokenType.noConfusion hk
          · rename_i hc
            injection hr3 with ha hq3
            right
            rw [← hq3]
            exact hd3
      · have hd2 := ParseFieldArgs_degradedE hd1 h2
        have hd3 := ParseDirectiveList_degradedE hd2 h3
        split at hr3
        · rename_i hc
          rcases hd3.2 with hk | hk <;> rw [hc] at hk <;>
            exact TokenType.noConfusion hk
        · rename_i hc
          injection hr3 with ha hq3
          right
          rw [← hq3]
          exact hd3
    · intro fs p p' hp r q h
      have hcurr : p'.curr = p.curr := hp.1
      unfold ParseFieldList at h
      split at h
      · rename_i hc
        obtain ⟨f, p1, h1, hr1⟩ := bindE_ok h
        rcases ihF hp h1 with ⟨q1', h1', hps1⟩ | hd1
        · rcases ihL (fs ++ [f]) hps1 hr1 with ⟨q', hrec', hpsq⟩ | hdq
          · left
            refine ⟨q', ?_, hpsq⟩
            unfold ParseFieldList
            rw [if_pos (by rw [hcurr]; exact hc)]
            simp only [h1', bindE_ok_eq]
            exact hrec'
          · right
            exact hdq
        · right
          exact (ParseField_degradedE fuel).2 hd1 hr1
      · rename_i hc
        injection h with h1 h2
        left
        refine ⟨p', ?_, ?_⟩
        · unfold ParseFieldList
          rw [if_neg (by rw [hcurr]; exact hc), h1]
        · rw [← h2]
          exact hp

/-- ParseQuery in simulation: on any synced pair of parser states, success
of the original run forces the extended run to succeed with the same node
or to diverge in its very last lookahead refill. -/
lemma ParseQuery_sync {fuel : Nat} {t : Str} {p p' : Parser} (hp : PSync t p p')
    {n : Node} {q : Parser} (h : ParseQuery fuel p = ERes.ok n q) :
    (∃ q', ParseQuery fuel p' = ERes.ok n q') ∨ ParseQuery fuel p' = ERes.diverge := by
  have hcurr : p'.curr = p.curr := hp.1
  unfold ParseQuery at h
  obtain ⟨u1, p1, h1, hr1⟩ := bindE_ok h
  obtain ⟨u2, p2, h2, hr2⟩ := bindE_ok hr1
  obtain ⟨dirs, p3, h3, hr3⟩ := bindE_ok hr2
  obtain ⟨u4, p4, h4, hr4⟩ := bindE_ok hr3
  obtain ⟨sels, p5, h5, hr5⟩ := bindE_ok hr4
  obtain ⟨u6, p6, h6, hr6⟩ := bindE_ok hr5
  injection hr6 with ha hq6
  rcases eat_sync hp h1 with ⟨q1', he1', hps1⟩ | hd1
  · rcases eat_sync hps1 h2 with ⟨q2', he2', hps2⟩ | hd2
    · rcases ParseDirectiveList_sync fuel t [] p2 q2' hps2 h3 with ⟨q3', h3', hps3⟩ | hd3
      · rcases eat_sync hps3 h4 with ⟨q4', he4', hps4⟩ | hd4
        · rcases (ParseField_sync fuel t).2 [] hps4 h5 with ⟨q5', h5', hps5⟩ | hd5
          · have hk6 : p5.curr.type = TokenBraceR := eat_ok_type h6
            have hk6' : q5'.curr.type = TokenBraceR := by rw [hps5.1]; exact hk6
            cases hnt' : NextToken q5'.lexer with
            | none =>
              right
              unfold ParseQuery
              simp only [he1', he2', h3', he4', h5', bindE_ok_eq]
              rw [eat_of_next_none hk6' hnt']
              rfl
            | some r' =>
              obtain ⟨tk', lx'⟩ := r'
              left
              refine ⟨{ lexer := lx', curr := tk' }, ?_⟩
              unfold ParseQuery
              simp only [he1', he2', h3', he4', h5', bindE_ok_eq]
              rw [eat_of_next_some hk6' hnt']
              simp only [bindE_ok_eq]
              rw [hps1.1, ha]
          · have hcontra := eat_ok_type h6
            rcases hd5.2 with hk | hk <;> rw [hk] at hcontra <;>
              exact TokenType.noConfusion hcontra
        · have hd5 := (ParseField_degradedE fuel).2 hd4 h5
          have hcontra := eat_ok_type h6
          rcases hd5.2 with hk | hk <;> rw [hk] at hcontra <;>
            exact TokenType.noConfusion hcontra
      · have hcontra := eat_ok_type h4
        rcases hd3.2 with hk | hk <;> rw [hk] at hcontra <;>
          exact TokenType.noConfusion hcontra
    · have hne : p2.curr.type ≠ TokenAt := by
        rcases hd2.2 with hk | hk <;> rw [hk] <;> decide
      obtain ⟨-, hq3⟩ := ParseDirectiveList_skip h3 hne
      have hcontra := eat_ok_type h4
      rw [hq3] at hcontra
      rcases hd2.2 with hk | hk <;> rw [hk] at hcontra <;>
        exact TokenType.noConfusion hcontra
  · obtain ⟨hdp2, he2⟩ := eat_degraded hd1.1 h2
    obtain ⟨-, hq3⟩ := ParseDirectiveList_skip h3 (by rw [he2]; decide)
    have hcontra := eat_ok_type h4
    rw [hq3, he2] at hcontra
    exact TokenType.noConfusion hcontra

/-- C10 (amended): parsing stops at the query's closing brace without
requiring end of input, and trailing text can never change the result
tree - for every input whose parse succeeds, the parse of the input with
any appended trailing text either succeeds with the very same tree or
never returns (it diverges in the single lookahead scan performed after
the closing brace); it never fails and never yields a different tree. -/
theorem claim10_trailing_text (input t : Str) (fuel : Nat) (n : Node) (s : Parser)
    (h : parse fuel input = ERes.ok n s) :
    (∃ s', parse fuel (input ++ t) = ERes.ok n s') ∨
    parse fuel (input ++ t) = ERes.diverge := by
  unfold parse at h ⊢
  cases hNP : NewParser input with
  | none =>
    rw [hNP] at h
    exact ERes.noConfusion h
  | some p0 =>
    have h0 : ParseQuery fuel p0 = ERes.ok n s := by rw [hNP] at h; exact h
    unfold NewParser at hNP
    cases hnt : NextToken (NewLexer input) with
    | none =>
      rw [hnt] at hNP
      exact Option.noConfusion hNP
    | some r0 =>
      obtain ⟨tok0, lx0⟩ := r0
      rw [hnt] at hNP
      injection hNP with hNP1
      rcases NewLexer_rel input t with hrel | hrel
      · rcases NextToken_sync hrel hnt with ⟨lx0', hnt', hlr⟩ | ⟨hop, hkind⟩
        · have hps0 : PSync t p0 { lexer := lx0', curr := tok0 } := by
            rw [← hNP1]
            exact ⟨rfl, hlr⟩
          rcases ParseQuery_sync hps0 h0 with ⟨s', hq'⟩ | hdivq
          · left
            refine ⟨s', ?_⟩
            unfold NewParser
            rw [hnt']
            exact hq'
          · right
            unfold NewParser
            rw [hnt']
            exact hdivq
        · exfalso
          have hd0 : DegradedE p0 := by
            rw [← hNP1]
            exact ⟨hop, hkind⟩
          unfold ParseQuery at h0
          obtain ⟨u1, p1, h1, hr1⟩ := bindE_ok h0
          obtain ⟨u2, p2, h2, hr2⟩ := bindE_ok hr1
          obtain ⟨hdp1, he1⟩ := eat_degraded hd0.1 h1
          have hcontra := eat_ok_type h2
          rw [he1] at hcontra
          exact TokenType.noConfusion hcontra
      · exfalso
        obtain ⟨hi, hpp, hpe, hnul, hw'⟩ := hrel
        have hnt0 := nextToken_eof_past (NewLexer input) (NewLexer_wf input) (by omega)
        rw [hnt0] at hnt
        injection hnt with hx
        injection hx with hxt hxl
        unfold ParseQuery at h0
        obtain ⟨u1, p1, h1, hr1⟩ := bindE_ok h0
        obtain ⟨u2, p2, h2, hr2⟩ := bindE_ok hr1
        have hcontra := eat_ok_type h1
        rw [← hNP1] at hcontra
        rw [← hxt] at hcontra
        exact TokenType.noConfusion hcontra

/-- Witness for C10: the input query Q brace a brace parses, and with the
trailing text space-junk appended the parse still succeeds with the same
tree or diverges (here it in fact succeeds). -/
theorem claim10_witness :
    (∃ s', parse 20 (chars "query Q \x7b a \x7d" ++ chars " junk") =
        ERes.ok (Node.mk NodeQuery (chars "Q") [] []
          [Node.mk NodeField (chars "a") [] [] []]) s') ∨
    parse 20 (chars "query Q \x7b a \x7d" ++ chars " junk") = ERes.diverge :=
  claim10_trailing_text (chars "query Q \x7b a \x7d") (chars " junk") 20
    (Node.mk NodeQuery (chars "Q") [] [] [Node.mk NodeField (chars "a") [] [] []])
    { lexer := { input := chars "query Q \x7b a \x7d", position := 14,
                 currentChar := nul },
      curr := { type := TokenEOF, value := [] } }
    rfl

end GQLIns
